import Mathlib

/-!
# Verification of the mutil core (filename derivation, safe rename, transcode orchestration)

Shallow embedding of `mutil/__main__.py` and `mutil/codec_options.py`.

* Strings are modelled as Lean `String`/`List Char`; Python's `len`, slicing,
  `rstrip`, truthiness and `re` operations are given explicit semantics.
* The filesystem is a finite map from paths to inode numbers plus a set of
  directories; `pathlib.Path.rename` is modelled as raising `FileExistsError`
  when the destination exists as a distinct file (the semantics that
  `Song.remove_cover`'s `except FileExistsError` handler anticipates) and as a
  successful no-op when source and destination are links to the same inode
  (POSIX `rename` same-file behaviour).
* The external encoder (`ffmpeg`) is modelled from the spec's collaborator
  contract (file in, file out): it creates its designated output file when the
  input exists and the output does not, touches nothing else, and its exit
  status is not inspected.
-/

/-! ## Character classes (the regex class `[^a-zA-Z0-9]` and `[0-9]`) -/

def isAlnum (c : Char) : Bool :=
  (48 ≤ c.toNat && c.toNat ≤ 57) || (65 ≤ c.toNat && c.toNat ≤ 90) ||
    (97 ≤ c.toNat && c.toNat ≤ 122)

def nonAlnum (c : Char) : Bool := !(isAlnum c)

def isDigitChar (c : Char) : Bool := 48 ≤ c.toNat && c.toNat ≤ 57

/-! ## `clean_string` (the StringSanitizer), translated from the source

The Python source applies, in order:
1. `pattern.sub` with the combined pattern `'|\$|@|&` and the substitution
   table `' -> '', $ -> S, @ -> a, & -> and` (all patterns are single
   characters, so the combined regex substitutes character-wise, left to
   right);
2. `re.sub(r'^[^a-zA-Z0-9]+|[^a-zA-Z0-9]+$', '', s)`: remove the leading run
   and the trailing run of non-alphanumeric characters;
3. `re.sub(r'[^a-zA-Z0-9]+', '_', s)`: collapse every remaining run of
   non-alphanumeric characters into a single underscore;
4. `if trim: s = s[:trim]`: Python truthiness (`None` and `0` are falsy) and
   Python slice semantics (a negative bound drops from the end). No stripping
   happens after the truncation.
-/

def substChar (c : Char) : List Char :=
  if c = '\'' then []
  else if c = '$' then ['S']
  else if c = '@' then ['a']
  else if c = '&' then ['a', 'n', 'd']
  else [c]

def subst : List Char → List Char
  | [] => []
  | c :: rest => substChar c ++ subst rest

/-- The helper `rdropList p l` removes the maximal suffix of `l` whose characters all
satisfy `p` (the semantics of the regex `X+$` removal and of Python's
`str.rstrip`). -/
def rdropList (p : Char → Bool) (l : List Char) : List Char :=
  ((l.reverse).dropWhile p).reverse

def stripFront (cs : List Char) : List Char := cs.dropWhile nonAlnum

def stripBack (cs : List Char) : List Char := rdropList nonAlnum cs

/-- Step 2 of `clean_string`: the regex `^[^a-zA-Z0-9]+|[^a-zA-Z0-9]+$`
removes the leading and the trailing non-alphanumeric run. -/
def stripEnds (cs : List Char) : List Char := stripBack (stripFront cs)

/-- Step 3 of `clean_string`: `re.sub('[^a-zA-Z0-9]+', '_', s)`.  The flag
records whether the scan is inside a non-alphanumeric run whose single
underscore has already been emitted. -/
def collapseAux : Bool → List Char → List Char
  | _, [] => []
  | inRun, c :: rest =>
    if isAlnum c then c :: collapseAux false rest
    else if inRun then collapseAux true rest
    else '_' :: collapseAux true rest

def collapse (l : List Char) : List Char := collapseAux false l

/-- Python `s[:t]` for an integer `t`: nonnegative `t` keeps the first `t`
characters, negative `t` drops the last `|t|` characters. -/
def pySliceTo (cs : List Char) (t : Int) : List Char :=
  if 0 ≤ t then cs.take t.toNat else cs.take (cs.length - (-t).toNat)

/-- Model of `if trim: string = string[:trim]` — `trim=None` and `trim=0` are falsy. -/
def pyTrim (trim : Option Int) (cs : List Char) : List Char :=
  match trim with
  | none => cs
  | some t => if t = 0 then cs else pySliceTo cs t

def clean_string (s : String) (trim : Option Int) : String :=
  String.mk (pyTrim trim (collapse (stripEnds (subst s.data))))

/-! ## Spec-side formulation of the sanitizer (§4.1 of the spec)

`substTable`/`tableApply` render step 1 as the spec words it: a fixed ordered
substitution table applied through one combined pattern.  `alnumRuns` and
`joinRuns` render steps 2–3 as the spec describes them: keep the maximal
alphanumeric runs and join them with a single separator (which simultaneously
strips the leading/trailing runs).  `clean_string_spec_stated` additionally
performs the trailing-separator strip after truncation that the spec sentence
claims for step 4. -/

def substTable : List (Char × List Char) :=
  [('\'', []), ('$', ['S']), ('@', ['a']), ('&', ['a', 'n', 'd'])]

def tableApply : List (Char × List Char) → Char → Option (List Char)
  | [], _ => none
  | (k, v) :: rest, c => if c = k then some v else tableApply rest c

def substSpec : List Char → List Char
  | [] => []
  | c :: rest => ((tableApply substTable c).getD [c]) ++ substSpec rest

/-- The maximal alphanumeric runs of a string, in order. -/
def alnumRuns : List Char → List (List Char)
  | [] => []
  | c :: rest =>
    if isAlnum c then
      match rest with
      | [] => [[c]]
      | d :: _ =>
        if isAlnum d then (c :: (alnumRuns rest).headD []) :: (alnumRuns rest).tail
        else [c] :: alnumRuns rest
    else alnumRuns rest

/-- Join runs with a single separator character. -/
def joinRuns : List (List Char) → List Char
  | [] => []
  | [r] => r
  | r :: rs => r ++ '_' :: joinRuns rs

/-- The sanitizer exactly as the claim states it, including the
"truncate, then strip any trailing separator" reading of step 4. -/
def clean_string_spec_stated (s : String) (trim : Option Int) : String :=
  let r := joinRuns (alnumRuns (substSpec s.data))
  match trim with
  | none => String.mk r
  | some t => String.mk (rdropList (fun c => c == '_') (r.take t.toNat))

/-! ## Basic lemmas about `dropWhile`, `rdropList`, `collapse`, `alnumRuns` -/

theorem dropWhile_append_eq (p : Char → Bool) (xs ys : List Char) :
    List.dropWhile p (xs ++ ys) =
      if List.dropWhile p xs = [] then List.dropWhile p ys
      else List.dropWhile p xs ++ ys := by
  induction xs with
  | nil => simp
  | cons c t ih =>
    by_cases h : p c
    · simpa [List.dropWhile_cons_of_pos h] using ih
    · simp [List.dropWhile_cons_of_neg h]

theorem rdropList_append (p : Char → Bool) (xs ys : List Char) :
    rdropList p (xs ++ ys) =
      if rdropList p ys = [] then rdropList p xs else xs ++ rdropList p ys := by
  unfold rdropList
  rw [List.reverse_append, dropWhile_append_eq]
  by_cases h : List.dropWhile p ys.reverse = []
  · simp [h]
  · have h' : ¬ (List.dropWhile p ys.reverse).reverse = [] := by
      simpa using h
    simp [h, h']

theorem rdropList_singleton (p : Char → Bool) (c : Char) :
    rdropList p [c] = if p c then [] else [c] := by
  by_cases h : p c <;> simp [rdropList, h]

theorem rdropList_cons (p : Char → Bool) (c : Char) (t : List Char) :
    rdropList p (c :: t) =
      if rdropList p t = [] then (if p c then [] else [c])
      else c :: rdropList p t := by
  have h := rdropList_append p [c] t
  simpa [rdropList_singleton] using h

theorem rdropList_cons_of_neg (p : Char → Bool) (c : Char) (t : List Char)
    (h : p c = false) : rdropList p (c :: t) = c :: rdropList p t := by
  rw [rdropList_cons]
  by_cases ht : rdropList p t = [] <;> simp [ht, h]

theorem rdropList_eq_nil_iff (p : Char → Bool) (l : List Char) :
    rdropList p l = [] ↔ ∀ c ∈ l, p c = true := by
  unfold rdropList
  rw [List.reverse_eq_nil_iff, List.dropWhile_eq_nil_iff]
  constructor
  · intro h c hc; exact h c (by simpa using hc)
  · intro h c hc; exact h c (by simpa using hc)

theorem length_dropWhile_le (p : Char → Bool) (l : List Char) :
    (List.dropWhile p l).length ≤ l.length := by
  induction l with
  | nil => simp
  | cons c t ih =>
    by_cases h : p c
    · rw [List.dropWhile_cons_of_pos h]; exact Nat.le_trans ih (by simp)
    · rw [List.dropWhile_cons_of_neg h]

theorem length_rdropList_le (p : Char → Bool) (l : List Char) :
    (rdropList p l).length ≤ l.length := by
  unfold rdropList
  calc ((l.reverse.dropWhile p).reverse).length
      = (l.reverse.dropWhile p).length := by simp
    _ ≤ l.reverse.length := length_dropWhile_le _ _
    _ = l.length := by simp

theorem rdropList_head (p : Char → Bool) (c : Char) (t : List Char)
    (h : rdropList p (c :: t) ≠ []) :
    ∃ t', rdropList p (c :: t) = c :: t' := by
  rw [rdropList_cons] at h ⊢
  by_cases ht : rdropList p t = []
  · by_cases hc : p c
    · simp [ht, hc] at h
    · exact ⟨[], by simp [ht, hc]⟩
  · exact ⟨rdropList p t, by simp [ht]⟩

theorem collapseAux_true_eq (l : List Char) :
    collapseAux true l = collapseAux false (l.dropWhile nonAlnum) := by
  induction l with
  | nil => rfl
  | cons c t ih =>
    by_cases h : isAlnum c
    · have h' : nonAlnum c = false := by simp [nonAlnum, h]
      simp [collapseAux, h, List.dropWhile_cons_of_neg, h']
    · have h' : nonAlnum c = true := by simp [nonAlnum, h]
      simp only [collapseAux, if_neg (by simp [h] : ¬ (isAlnum c = true)), if_pos rfl]
      rw [List.dropWhile_cons_of_pos (by simp [h'])]
      exact ih

theorem collapse_cons_alnum (c : Char) (t : List Char) (h : isAlnum c = true) :
    collapse (c :: t) = c :: collapse t := by
  simp [collapse, collapseAux, h]

theorem collapse_cons_nonalnum (c : Char) (t : List Char) (h : isAlnum c = false) :
    collapse (c :: t) = '_' :: collapse (t.dropWhile nonAlnum) := by
  simp only [collapse, collapseAux, h]
  rw [collapseAux_true_eq]
  simp

theorem alnumRuns_cons_nonalnum (c : Char) (t : List Char) (h : isAlnum c = false) :
    alnumRuns (c :: t) = alnumRuns t := by
  cases t <;> simp [alnumRuns, h]

theorem alnumRuns_cons_alnum (c : Char) (t : List Char) (h : isAlnum c = true) :
    alnumRuns (c :: t) =
      (c :: t.takeWhile isAlnum) :: alnumRuns (t.dropWhile isAlnum) := by
  induction t generalizing c with
  | nil => simp [alnumRuns, h]
  | cons d t' ih =>
    by_cases hd : isAlnum d
    · have step : alnumRuns (c :: d :: t') =
          (c :: (alnumRuns (d :: t')).headD []) :: (alnumRuns (d :: t')).tail := by
        simp [alnumRuns, h, hd]
      rw [step, ih d hd]
      rw [List.takeWhile_cons_of_pos hd, List.dropWhile_cons_of_pos hd]
      simp
    · have step : alnumRuns (c :: d :: t') = [c] :: alnumRuns (d :: t') := by
        simp [alnumRuns, h, hd]
      rw [step, List.takeWhile_cons_of_neg hd, List.dropWhile_cons_of_neg hd]

theorem alnumRuns_dropWhile (l : List Char) :
    alnumRuns (l.dropWhile nonAlnum) = alnumRuns l := by
  induction l with
  | nil => rfl
  | cons c t ih =>
    by_cases h : isAlnum c
    · rw [List.dropWhile_cons_of_neg (by simp [nonAlnum, h])]
    · rw [List.dropWhile_cons_of_pos (by simp [nonAlnum, h]),
        alnumRuns_cons_nonalnum c t (by simp [h]), ih]

theorem alnumRuns_eq_nil_iff (l : List Char) :
    alnumRuns l = [] ↔ l.dropWhile nonAlnum = [] := by
  induction l with
  | nil => simp [alnumRuns]
  | cons c t ih =>
    by_cases h : isAlnum c
    · rw [alnumRuns_cons_alnum c t h, List.dropWhile_cons_of_neg (by simp [nonAlnum, h])]
      simp
    · rw [alnumRuns_cons_nonalnum c t (by simp [h]),
        List.dropWhile_cons_of_pos (by simp [nonAlnum, h])]
      exact ih

theorem joinRuns_cons (r : List Char) (rs : List (List Char)) :
    joinRuns (r :: rs) = r ++ (if rs = [] then [] else '_' :: joinRuns rs) := by
  cases rs <;> simp [joinRuns]

theorem stripBack_nil_iff (t : List Char) :
    stripBack t = [] ↔ t.dropWhile nonAlnum = [] := by
  rw [stripBack, rdropList_eq_nil_iff, List.dropWhile_eq_nil_iff]

/-- Main structural lemma: collapsing after stripping the trailing run equals
joining the alphanumeric runs, up to a possible leading separator when the
input starts with a non-alphanumeric run. -/
theorem collapse_stripBack_eq :
    ∀ (n : Nat) (l : List Char), l.length ≤ n →
    collapse (stripBack l) =
      (if l.dropWhile nonAlnum = [] then []
       else (if l.takeWhile nonAlnum = [] then [] else ['_']) ++ joinRuns (alnumRuns l)) := by
  intro n
  induction n with
  | zero =>
    intro l hl
    have : l = [] := List.length_eq_zero.mp (Nat.le_zero.mp hl)
    subst this
    simp [stripBack, rdropList, collapse, collapseAux]
  | succ m ih =>
    intro l hl
    match l with
    | [] => simp [stripBack, rdropList, collapse, collapseAux]
    | c :: t =>
      have ht : t.length ≤ m := by simpa using hl
      by_cases hc : isAlnum c = true
      · -- head is alphanumeric
        have hnc : nonAlnum c = false := by simp [nonAlnum, hc]
        rw [show stripBack (c :: t) = c :: stripBack t from
          rdropList_cons_of_neg nonAlnum c t hnc]
        rw [collapse_cons_alnum c (stripBack t) hc]
        rw [List.dropWhile_cons_of_neg (by simp [hnc]),
          List.takeWhile_cons_of_neg (by simp [hnc])]
        rw [if_neg (by simp), if_pos rfl]
        rw [alnumRuns_cons_alnum c t hc, joinRuns_cons]
        simp only [List.nil_append, List.cons_append, List.cons.injEq, true_and]
        -- goal: collapse (stripBack t) = takeWhile isAlnum t ++ ite ...
        match t with
        | [] => simp [stripBack, rdropList, collapse, collapseAux, alnumRuns, joinRuns]
        | d :: t' =>
          by_cases hd : isAlnum d = true
          · have hnd : nonAlnum d = false := by simp [nonAlnum, hd]
            have iht := ih (d :: t') ht
            rw [List.dropWhile_cons_of_neg (by simp [hnd]),
              List.takeWhile_cons_of_neg (by simp [hnd])] at iht
            rw [if_neg (by simp), if_pos rfl] at iht
            rw [iht, alnumRuns_cons_alnum d t' hd, joinRuns_cons]
            rw [List.takeWhile_cons_of_pos hd, List.dropWhile_cons_of_pos hd]
            simp
          · have hdb : isAlnum d = false := by simpa using hd
            have hnd : nonAlnum d = true := by simp [nonAlnum, hdb]
            rw [List.takeWhile_cons_of_neg hd, List.dropWhile_cons_of_neg hd]
            have iht := ih (d :: t') ht
            rw [alnumRuns_cons_nonalnum d t' hdb] at iht ⊢
            by_cases hdw : List.dropWhile nonAlnum (d :: t') = []
            · rw [if_pos hdw] at iht
              have har : alnumRuns t' = [] := by
                rw [alnumRuns_eq_nil_iff]
                rw [List.dropWhile_cons_of_pos (by simp [hnd])] at hdw
                exact hdw
              rw [iht, har]
              simp
            · rw [if_neg hdw] at iht
              rw [List.takeWhile_cons_of_pos (by simp [hnd])] at iht
              rw [if_neg (by simp)] at iht
              have har : ¬ alnumRuns t' = [] := by
                rw [alnumRuns_eq_nil_iff]
                rw [List.dropWhile_cons_of_pos (by simp [hnd])] at hdw
                exact hdw
              rw [iht, if_neg har]
              simp
      · -- head is not alphanumeric
        have hcb : isAlnum c = false := by simpa using hc
        have hnc : nonAlnum c = true := by simp [nonAlnum, hcb]
        rw [List.dropWhile_cons_of_pos (by simp [hnc]),
          List.takeWhile_cons_of_pos (by simp [hnc]),
          alnumRuns_cons_nonalnum c t hcb]
        by_cases hsb : stripBack t = []
        · have hdw : t.dropWhile nonAlnum = [] := (stripBack_nil_iff t).mp hsb
          rw [if_pos hdw]
          rw [show stripBack (c :: t) = [] from by
            rw [stripBack, rdropList_cons]
            rw [show rdropList nonAlnum t = [] from hsb]
            simp [hnc]]
          rfl
        · have hdw : ¬ t.dropWhile nonAlnum = [] := fun h => hsb ((stripBack_nil_iff t).mpr h)
          rw [if_neg hdw, if_neg (by simp)]
          rw [show stripBack (c :: t) = c :: stripBack t from by
            rw [stripBack, rdropList_cons]
            rw [if_neg (show ¬ rdropList nonAlnum t = [] from hsb)]
            rfl]
          rw [collapse_cons_nonalnum c (stripBack t) hcb]
          have iht := ih t ht
          rw [if_neg hdw] at iht
          match t, hsb, hdw, iht with
          | d :: t', hsb, hdw, iht =>
            obtain ⟨Y, hY⟩ := rdropList_head nonAlnum d t' (by simpa [stripBack] using hsb)
            by_cases hd : isAlnum d = true
            · have hnd : nonAlnum d = false := by simp [nonAlnum, hd]
              rw [List.takeWhile_cons_of_neg (by simp [hnd])] at iht
              rw [if_pos rfl] at iht
              rw [show stripBack (d :: t') = d :: Y from hY] at iht ⊢
              rw [show List.dropWhile nonAlnum (d :: Y) = d :: Y from
                List.dropWhile_cons_of_neg (by simp [hnd])]
              rw [iht]
              simp
            · have hdb : isAlnum d = false := by simpa using hd
              have hnd : nonAlnum d = true := by simp [nonAlnum, hdb]
              rw [List.takeWhile_cons_of_pos (by simp [hnd])] at iht
              rw [if_neg (by simp)] at iht
              rw [show stripBack (d :: t') = d :: Y from hY] at iht ⊢
              rw [collapse_cons_nonalnum d Y hdb] at iht
              rw [show List.dropWhile nonAlnum (d :: Y) = List.dropWhile nonAlnum Y from
                List.dropWhile_cons_of_pos (by simp [hnd])]
              have htail : collapse (List.dropWhile nonAlnum Y) =
                  joinRuns (alnumRuns (d :: t')) := by
                have h2 := iht
                simp only [List.singleton_append] at h2
                exact ((List.cons.injEq _ _ _ _).mp h2).2
              rw [htail]
              simp

/-- Steps 2–3 of `clean_string` compute exactly the alphanumeric runs joined
by single separators. -/
theorem collapse_stripEnds_eq (l : List Char) :
    collapse (stripEnds l) = joinRuns (alnumRuns l) := by
  have key := collapse_stripBack_eq (l.dropWhile nonAlnum).length (l.dropWhile nonAlnum)
    (Nat.le_refl _)
  rw [stripEnds, stripFront]
  by_cases h : l.dropWhile nonAlnum = []
  · rw [h] at key ⊢
    simp only [List.dropWhile_nil, if_pos rfl] at key
    rw [key]
    have : alnumRuns l = [] := (alnumRuns_eq_nil_iff l).mpr h
    rw [this]; rfl
  · have hidem : (l.dropWhile nonAlnum).dropWhile nonAlnum = l.dropWhile nonAlnum := by
      match hx : l.dropWhile nonAlnum, h with
      | c :: t, _ =>
        have hc : nonAlnum c = false := by
          have := List.head_dropWhile_not nonAlnum l (by simp [hx])
          simpa [hx] using this
        exact List.dropWhile_cons_of_neg (by simp [hc])
    have htw : (l.dropWhile nonAlnum).takeWhile nonAlnum = [] := by
      match hx : l.dropWhile nonAlnum, h with
      | c :: t, _ =>
        have hc : nonAlnum c = false := by
          have := List.head_dropWhile_not nonAlnum l (by simp [hx])
          simpa [hx] using this
        exact List.takeWhile_cons_of_neg (by simp [hc])
    rw [hidem, htw] at key
    rw [if_neg h, if_pos rfl] at key
    rw [key, alnumRuns_dropWhile]
    simp

/-! ## Well-formedness of runs and fixpoint lemmas (towards idempotence) -/

theorem takeWhile_eq_self_of_all (p : Char → Bool) (l : List Char)
    (h : ∀ c ∈ l, p c = true) : l.takeWhile p = l := by
  induction l with
  | nil => rfl
  | cons c t ih =>
    rw [List.takeWhile_cons_of_pos (h c (by simp))]
    rw [ih (fun c hc => h c (by simp [hc]))]

theorem dropWhile_eq_nil_of_all (p : Char → Bool) (l : List Char)
    (h : ∀ c ∈ l, p c = true) : l.dropWhile p = [] := by
  induction l with
  | nil => rfl
  | cons c t ih =>
    rw [List.dropWhile_cons_of_pos (h c (by simp))]
    exact ih (fun c hc => h c (by simp [hc]))

theorem takeWhile_append_of_all (p : Char → Bool) (xs ys : List Char)
    (h : ∀ c ∈ xs, p c = true) :
    (xs ++ ys).takeWhile p = xs ++ ys.takeWhile p := by
  induction xs with
  | nil => simp
  | cons c t ih =>
    rw [List.cons_append, List.takeWhile_cons_of_pos (h c (by simp))]
    rw [ih (fun c hc => h c (by simp [hc]))]
    rfl

theorem dropWhile_append_of_all (p : Char → Bool) (xs ys : List Char)
    (h : ∀ c ∈ xs, p c = true) :
    (xs ++ ys).dropWhile p = ys.dropWhile p := by
  induction xs with
  | nil => simp
  | cons c t ih =>
    rw [List.cons_append, List.dropWhile_cons_of_pos (h c (by simp))]
    exact ih (fun c hc => h c (by simp [hc]))

theorem alnumRuns_runs_wf :
    ∀ (n : Nat) (l : List Char), l.length ≤ n →
      ∀ r ∈ alnumRuns l, r ≠ [] ∧ ∀ c ∈ r, isAlnum c = true := by
  intro n
  induction n with
  | zero =>
    intro l hl r hr
    have : l = [] := List.length_eq_zero.mp (Nat.le_zero.mp hl)
    subst this
    simp [alnumRuns] at hr
  | succ m ih =>
    intro l hl r hr
    match l with
    | [] => simp [alnumRuns] at hr
    | c :: t =>
      have ht : t.length ≤ m := by simpa using hl
      by_cases hc : isAlnum c = true
      · rw [alnumRuns_cons_alnum c t hc] at hr
        rcases List.mem_cons.mp hr with h | h
        · subst h
          refine ⟨by simp, ?_⟩
          intro x hx
          rcases List.mem_cons.mp hx with rfl | hx
          · exact hc
          · exact List.mem_takeWhile_imp hx
        · exact ih (t.dropWhile isAlnum)
            (Nat.le_trans (length_dropWhile_le _ _) ht) r h
      · rw [alnumRuns_cons_nonalnum c t (by simpa using hc)] at hr
        exact ih t ht r hr

theorem alnumRuns_joinRuns (rs : List (List Char))
    (h : ∀ r ∈ rs, r ≠ [] ∧ ∀ c ∈ r, isAlnum c = true) :
    alnumRuns (joinRuns rs) = rs := by
  induction rs with
  | nil => rfl
  | cons r rs ih =>
    obtain ⟨hne, hal⟩ := h r (by simp)
    match r, hne with
    | c :: t, _ =>
      have hc : isAlnum c = true := hal c (by simp)
      have htal : ∀ x ∈ t, isAlnum x = true := fun x hx => hal x (by simp [hx])
      match rs with
      | [] =>
        show alnumRuns (c :: t) = [c :: t]
        rw [alnumRuns_cons_alnum c t hc, takeWhile_eq_self_of_all _ _ htal,
          dropWhile_eq_nil_of_all _ _ htal]
        rfl
      | r' :: rs' =>
        have hJ : joinRuns ((c :: t) :: r' :: rs') =
            c :: (t ++ '_' :: joinRuns (r' :: rs')) := by
          rw [joinRuns_cons, if_neg (by simp)]
          rfl
        rw [hJ, alnumRuns_cons_alnum _ _ hc]
        rw [takeWhile_append_of_all _ _ _ htal,
          List.takeWhile_cons_of_neg (by decide : ¬ isAlnum '_' = true)]
        rw [dropWhile_append_of_all _ _ _ htal,
          List.dropWhile_cons_of_neg (by decide : ¬ isAlnum '_' = true)]
        rw [alnumRuns_cons_nonalnum '_' _ (by decide)]
        rw [ih (fun x hx => h x (by simp [hx]))]
        simp

theorem joinRuns_chars (rs : List (List Char))
    (h : ∀ r ∈ rs, ∀ c ∈ r, isAlnum c = true) :
    ∀ c ∈ joinRuns rs, isAlnum c = true ∨ c = '_' := by
  induction rs with
  | nil => simp [joinRuns]
  | cons r rs ih =>
    intro c hc
    rw [joinRuns_cons] at hc
    rcases List.mem_append.mp hc with hc | hc
    · exact Or.inl (h r (by simp) c hc)
    · by_cases hrs : rs = []
      · rw [if_pos hrs] at hc; simp at hc
      · rw [if_neg hrs] at hc
        rcases List.mem_cons.mp hc with rfl | hc
        · exact Or.inr rfl
        · exact ih (fun r hr => h r (by simp [hr])) c hc

theorem substChar_eq_self (c : Char) (h : isAlnum c = true ∨ c = '_') :
    substChar c = [c] := by
  rcases h with h | h
  · have h1 : ¬ c = '\'' := fun e => absurd (e ▸ h) (by decide)
    have h2 : ¬ c = '$' := fun e => absurd (e ▸ h) (by decide)
    have h3 : ¬ c = '@' := fun e => absurd (e ▸ h) (by decide)
    have h4 : ¬ c = '&' := fun e => absurd (e ▸ h) (by decide)
    simp [substChar, h1, h2, h3, h4]
  · subst h; rfl

theorem subst_eq_self (l : List Char) (h : ∀ c ∈ l, isAlnum c = true ∨ c = '_') :
    subst l = l := by
  induction l with
  | nil => rfl
  | cons c t ih =>
    show substChar c ++ subst t = c :: t
    rw [substChar_eq_self c (h c (by simp)), ih (fun c hc => h c (by simp [hc]))]
    rfl

theorem tableApply_substTable (c : Char) :
    (tableApply substTable c).getD [c] = substChar c := by
  by_cases h1 : c = '\''
  · subst h1; rfl
  · by_cases h2 : c = '$'
    · subst h2; rfl
    · by_cases h3 : c = '@'
      · subst h3; rfl
      · by_cases h4 : c = '&'
        · subst h4; rfl
        · simp [substTable, tableApply, substChar, h1, h2, h3, h4]

theorem substSpec_eq_subst (l : List Char) : substSpec l = subst l := by
  induction l with
  | nil => rfl
  | cons c t ih =>
    show (tableApply substTable c).getD [c] ++ substSpec t = substChar c ++ subst t
    rw [tableApply_substTable, ih]

theorem clean_string_none_data (s : String) :
    (clean_string s none).data = joinRuns (alnumRuns (subst s.data)) :=
  collapse_stripEnds_eq (subst s.data)

/-! ## Claim C6 and C8 -/

/-- C6 counterexample: the claim says step 4 truncates and *then strips a
trailing separator left dangling by the truncation*.  The source only slices
(`string[:trim]`) and never strips after truncating, so `clean_string` keeps
the dangling separator that the claim-stated algorithm removes. -/
theorem c6_counterexample :
    clean_string "a b" (some 2) = "a_"
    ∧ clean_string_spec_stated "a b" (some 2) = "a"
    ∧ ("a_" : String) ≠ "a" := by
  refine ⟨by decide, by decide, by decide⟩

/-- C6 (amended): `clean_string` performs (1) the fixed substitutions via a
single combined pattern, (2) strips the leading/trailing non-alphanumeric
runs, (3) collapses every remaining non-alphanumeric run to a single
separator — together: it keeps the alphanumeric runs joined by single
underscores — and (4) when a nonzero trim limit is given it truncates with
Python slice semantics and performs no trailing-separator strip (that strip
is done by the caller in `format_filename`).  In particular
`clean_string "<>test+-string()" = "test_string"`. -/
theorem c6_clean_string_algorithm :
    (∀ (s : String) (t : Option Int),
      clean_string s t = String.mk (pyTrim t (joinRuns (alnumRuns (substSpec s.data)))))
    ∧ clean_string "<>test+-string()" none = "test_string" := by
  constructor
  · intro s t
    unfold clean_string
    rw [collapse_stripEnds_eq, substSpec_eq_subst]
  · decide

/-- C8: `clean_string` without a trim limit is idempotent. -/
theorem c8_clean_string_idempotent (s : String) :
    clean_string (clean_string s none) none = clean_string s none := by
  have hwf : ∀ r ∈ alnumRuns (subst s.data), r ≠ [] ∧ ∀ c ∈ r, isAlnum c = true :=
    alnumRuns_runs_wf (subst s.data).length (subst s.data) (Nat.le_refl _)
  have hchars : ∀ c ∈ joinRuns (alnumRuns (subst s.data)), isAlnum c = true ∨ c = '_' :=
    joinRuns_chars _ (fun r hr => (hwf r hr).2)
  apply String.ext
  rw [clean_string_none_data (clean_string s none), clean_string_none_data s]
  rw [subst_eq_self _ hchars, alnumRuns_joinRuns _ hwf]

/-! ## Errors raised by the source

`typeError` models Python `TypeError` (the explicit `isinstance` check in
`parse_tracknumber`, and `re.sub` applied to `None` in `clean_string`);
`attributeError` models the `AttributeError` raised by `.group(0)` when
`re.match` returns `None`; `valueError` models `ValueError` (insufficient
metadata / unsupported codec); `notFound`/`alreadyExists` model
`FileNotFoundError`/`FileExistsError`. -/
inductive Err
  | notFound
  | alreadyExists
  | typeError
  | attributeError
  | valueError
deriving DecidableEq, Repr

/-! ## `parse_tracknumber` (the TrackNumberParser)

`none` models a non-`str` argument (TinyTag yields `None` when the track tag
is absent); the source then raises `TypeError`.  An empty string returns
`None`.  Otherwise `re.match(r'^[0-9]+', s)` takes the leading maximal digit
run; if there is none, `.group(0)` on the failed match raises
`AttributeError`; otherwise `int(...)` of the run is returned. -/

def digitsToNat (cs : List Char) : Nat :=
  cs.foldl (fun a c => a * 10 + (c.toNat - 48)) 0

def parse_tracknumber (s : Option String) : Except Err (Option Nat) :=
  match s with
  | none => .error .typeError
  | some str =>
    if str.length < 1 then .ok none
    else
      match str.data.takeWhile isDigitChar with
      | [] => .error .attributeError
      | d :: rest => .ok (some (digitsToNat (d :: rest)))

/-- C7 counterexample: the claim says empty **or absent** input yields `none`
without raising; the source raises `TypeError` on an absent (non-string)
input. -/
theorem c7_counterexample :
    parse_tracknumber none = .error .typeError
    ∧ (Except.error Err.typeError : Except Err (Option Nat)) ≠ .ok none := by
  exact ⟨rfl, fun h => Except.noConfusion h⟩

/-- C7 (amended): an empty string yields `none` without raising; an absent
(non-string) input fails with a type error; a non-empty input yields the
integer value of the leading maximal run of ASCII digits; it fails with a
format error (`AttributeError` from `.group` on a failed match) when the
input has no leading digit. -/
theorem c7_parse_tracknumber (s2 : String) (d : Char) (rest : List Char)
    (h2 : s2.data.takeWhile isDigitChar = d :: rest) :
    parse_tracknumber none = .error .typeError
    ∧ parse_tracknumber (some "") = .ok none
    ∧ (∀ s : String, s ≠ "" → s.data.takeWhile isDigitChar = [] →
        parse_tracknumber (some s) = .error .attributeError)
    ∧ parse_tracknumber (some s2) = .ok (some (digitsToNat (d :: rest)))
    ∧ parse_tracknumber (some "009") = .ok (some 9)
    ∧ parse_tracknumber (some "2/10") = .ok (some 2)
    ∧ parse_tracknumber (some "5\x00") = .ok (some 5) := by
  refine ⟨rfl, rfl, ?_, ?_, rfl, rfl, rfl⟩
  · intro s hne h
    have hlen : ¬ s.length < 1 := by
      cases s with
      | mk data =>
        match data with
        | [] => exact absurd rfl hne
        | c :: t => simp [String.length]
    simp [parse_tracknumber, hlen, h]
  · have hlen : ¬ s2.length < 1 := by
      cases s2 with
      | mk data =>
        match data, h2 with
        | [], h2 => simp at h2
        | c :: t, _ => simp [String.length]
    simp [parse_tracknumber, hlen, h2]

/-! ## Decimal rendering (Python `f'{n:02d}'`) -/

def digitChar : Nat → Char
  | 0 => '0'
  | 1 => '1'
  | 2 => '2'
  | 3 => '3'
  | 4 => '4'
  | 5 => '5'
  | 6 => '6'
  | 7 => '7'
  | 8 => '8'
  | _ => '9'

def natDigitsAux : Nat → Nat → List Char
  | 0, _ => []
  | fuel + 1, n =>
    if n < 10 then [digitChar n]
    else natDigitsAux fuel (n / 10) ++ [digitChar (n % 10)]

def natToString (n : Nat) : String := String.mk (natDigitsAux (n + 1) n)

/-- Python `f'{n:02d}'` for a nonnegative integer: zero-pad to width 2. -/
def pad2 (n : Nat) : String := if n < 10 then "0" ++ natToString n else natToString n

theorem isAlnum_digitChar (k : Nat) : isAlnum (digitChar k) = true := by
  match k with
  | 0 => decide
  | 1 => decide
  | 2 => decide
  | 3 => decide
  | 4 => decide
  | 5 => decide
  | 6 => decide
  | 7 => decide
  | 8 => decide
  | k + 9 => exact (by decide : isAlnum '9' = true)

theorem digitChar_ne_underscore (k : Nat) : (digitChar k == '_') = false := by
  match k with
  | 0 => decide
  | 1 => decide
  | 2 => decide
  | 3 => decide
  | 4 => decide
  | 5 => decide
  | 6 => decide
  | 7 => decide
  | 8 => decide
  | k + 9 => exact (by decide : (('9' : Char) == '_') = false)

theorem natDigitsAux_concat (fuel n : Nat) (h : fuel ≠ 0) :
    ∃ (l : List Char) (k : Nat), natDigitsAux fuel n = l ++ [digitChar k] := by
  match fuel, h with
  | f + 1, _ =>
    by_cases hn : n < 10
    · exact ⟨[], n, by simp [natDigitsAux, hn]⟩
    · exact ⟨natDigitsAux f (n / 10), n % 10, by simp [natDigitsAux, hn]⟩

theorem rdropList_concat_of_neg (p : Char → Bool) (l : List Char) (a : Char)
    (h : p a = false) : rdropList p (l ++ [a]) = l ++ [a] := by
  rw [rdropList_append, rdropList_singleton, h]
  simp

/-! ## Paths (`pathlib.PurePath` restricted to what the source uses)

A path is its list of components.  Equality of paths models `FsPath.__eq__`
(comparison of the parsed components).  `joinpath` drops empty segments, as
`pathlib` does when parsing arguments. -/

structure FsPath where
  parts : List String
deriving DecidableEq, Repr

def FsPath.name (p : FsPath) : String := p.parts.getLastD ""

def FsPath.parent (p : FsPath) : FsPath := ⟨p.parts.dropLast⟩

def FsPath.withName (p : FsPath) (n : String) : FsPath := ⟨p.parts.dropLast ++ [n]⟩

def FsPath.joinParts (p : FsPath) (xs : List String) : FsPath :=
  ⟨p.parts ++ xs.filter (fun s => !(s == ""))⟩

/-- Index of the last dot of a component, if any. -/
def lastDot : List Char → Option Nat
  | [] => none
  | c :: rest =>
    match lastDot rest with
    | some i => some (i + 1)
    | none => if c = '.' then some 0 else none

/-- Model of `PurePath.suffix` on the final component: the part from the last dot on,
empty when the dot is the first character (hidden file) or the last one. -/
def pysuffixData (cs : List Char) : List Char :=
  match lastDot cs with
  | some i => if 0 < i ∧ i + 1 < cs.length then cs.drop i else []
  | none => []

def pystemData (cs : List Char) : List Char :=
  match lastDot cs with
  | some i => if 0 < i ∧ i + 1 < cs.length then cs.take i else cs
  | none => cs

def FsPath.pysuffix (p : FsPath) : String := String.mk (pysuffixData p.name.data)

/-- Model of `PurePath.with_suffix`: remove the old suffix, if any, and append the
new one. -/
def FsPath.with_suffix (p : FsPath) (newSuffix : String) : FsPath :=
  p.withName (String.mk (pystemData p.name.data) ++ newSuffix)

theorem pystem_append_pysuffix (cs : List Char) :
    pystemData cs ++ pysuffixData cs = cs := by
  cases hld : lastDot cs with
  | none => simp [pystemData, pysuffixData, hld]
  | some i =>
    by_cases h : 0 < i ∧ i + 1 < cs.length
    · simp [pystemData, pysuffixData, hld, h]
    · simp [pystemData, pysuffixData, hld, h]

theorem fspath_withName_name (p : FsPath) (n : String) : (p.withName n).name = n := by
  unfold FsPath.withName FsPath.name
  simp

theorem fspath_withName_parent (p : FsPath) (n : String) :
    (p.withName n).parent = p.parent := by
  unfold FsPath.withName FsPath.parent
  simp

/-- If the final component is nonempty, rebuilding a path from its own name
gives the path back. -/
theorem fspath_withName_self (p : FsPath) (h : p.name ≠ "") : p.withName p.name = p := by
  unfold FsPath.name at h
  unfold FsPath.withName FsPath.name
  match hp : p.parts with
  | [] => exact absurd (by rw [hp]; rfl) h
  | x :: xs =>
    have hne : p.parts ≠ [] := by simp [hp]
    cases p
    congr 1
    simp only at hp ⊢
    subst hp
    rw [List.getLastD_eq_getLast? , List.getLast?_eq_getLast _ (by simp)]
    simp [List.dropLast_append_getLast]

/-- Applying `with_suffix` with the path's own (nonempty) suffix is the
identity. -/
theorem with_suffix_self (p : FsPath) (h : p.pysuffix ≠ "") :
    p.with_suffix p.pysuffix = p := by
  have hname : p.name ≠ "" := by
    intro e
    apply h
    unfold FsPath.pysuffix
    rw [e]
    rfl
  unfold FsPath.with_suffix FsPath.pysuffix
  have : String.mk (pystemData p.name.data) ++ String.mk (pysuffixData p.name.data)
      = p.name := by
    show String.mk (pystemData p.name.data ++ pysuffixData p.name.data) = p.name
    rw [pystem_append_pysuffix]
  rw [this]
  exact fspath_withName_self p hname

/-! ## Filesystem and world model

Files are a finite map from paths to inode numbers; two paths are "the same
file" (`os.path.samefile`) exactly when they map to the same inode.
Directories are a list of paths.  The world additionally records the trace of
external-encoder invocations and of performed rename system calls. -/

def lookupPath : List (FsPath × Nat) → FsPath → Option Nat
  | [], _ => none
  | (k, v) :: rest, p => if k = p then some v else lookupPath rest p

def removePath : List (FsPath × Nat) → FsPath → List (FsPath × Nat)
  | [], _ => []
  | (k, v) :: rest, p =>
    if k = p then removePath rest p else (k, v) :: removePath rest p

def memPath : List FsPath → FsPath → Bool
  | [], _ => false
  | d :: rest, p => if d = p then true else memPath rest p

structure FS where
  files : List (FsPath × Nat)
  dirs : List FsPath
  nextIno : Nat
deriving DecidableEq, Repr

def FS.inode (fs : FS) (p : FsPath) : Option Nat := lookupPath fs.files p

def FS.isFile (fs : FS) (p : FsPath) : Bool := (fs.inode p).isSome

def FS.isDir (fs : FS) (p : FsPath) : Bool := memPath fs.dirs p

/-- Model of `Path.exists()`: the path is a regular file or a directory. -/
def FS.pexists (fs : FS) (p : FsPath) : Bool := fs.isFile p || fs.isDir p

/-- Model of `os.path.samefile`: canonical identity by inode, not by path text. -/
def FS.samefile (fs : FS) (a b : FsPath) : Bool :=
  match fs.inode a, fs.inode b with
  | some i, some j => i == j
  | _, _ => false

def FS.removeFile (fs : FS) (p : FsPath) : FS :=
  { fs with files := removePath fs.files p }

def FS.setFile (fs : FS) (p : FsPath) (i : Nat) : FS :=
  { fs with files := (p, i) :: removePath fs.files p }

def FS.createFile (fs : FS) (p : FsPath) : FS :=
  { fs.setFile p fs.nextIno with nextIno := fs.nextIno + 1 }

/-- One invocation of the external encoder process. -/
structure EncCall where
  input : FsPath
  output : FsPath
  args : List String
deriving DecidableEq, Repr

structure World where
  fs : FS
  calls : List EncCall
  moves : List (FsPath × FsPath)
deriving DecidableEq, Repr

/-- Model of `pathlib.Path.rename`: fails with `FileNotFoundError` when the source is
not a file; succeeds as a no-op when the destination is a link to the same
inode (POSIX same-file behaviour); fails with `FileExistsError` when the
destination exists as a distinct file or directory (the semantics the
source's `except FileExistsError` handler anticipates); otherwise moves the
inode. -/
def World.renameFile (w : World) (src dst : FsPath) : Except Err World :=
  match w.fs.inode src with
  | none => .error .notFound
  | some i =>
    if w.fs.pexists dst then
      if w.fs.inode dst = some i then
        .ok { w with moves := w.moves ++ [(src, dst)] }
      else .error .alreadyExists
    else
      .ok { w with fs := (w.fs.removeFile src).setFile dst i,
                   moves := w.moves ++ [(src, dst)] }

/-- All the directories `mkdir(parents=True, exist_ok=True)` guarantees. -/
def ancestors (p : FsPath) : List FsPath :=
  (List.range (p.parts.length + 1)).map (fun k => ⟨p.parts.take k⟩)

def World.mkdirParents (w : World) (d : FsPath) : World :=
  { w with fs := { w.fs with dirs := w.fs.dirs ++ ancestors d } }

def World.mkdirOne (w : World) (d : FsPath) : World :=
  { w with fs := { w.fs with dirs := w.fs.dirs ++ [d] } }

/-- Modelled from the spec: the external encoder collaborator (§6) is a
black box with a file-in/file-out contract.  It records its invocation,
creates its designated output file when the input exists and the output path
is free, and touches nothing else; its exit status is not inspected. -/
def World.ffmpeg (w : World) (input output : FsPath) (args : List String) : World :=
  let w1 : World := { w with calls := w.calls ++ [⟨input, output, args⟩] }
  if w1.fs.isFile input && !(w1.fs.pexists output) then
    { w1 with fs := w1.fs.createFile output }
  else w1

/-- Model of `Path.unlink()`: remove a file, `FileNotFoundError` when absent. -/
def World.unlink (w : World) (p : FsPath) : Except Err World :=
  if w.fs.isFile p then .ok { w with fs := w.fs.removeFile p }
  else .error .notFound

/-! ## The codec table (`codec_options.py`) -/

structure CodecOpt where
  suffix : String
  options : List String
deriving DecidableEq, Repr

def codec_config : List (String × CodecOpt) :=
  [("opus", ⟨".ogg",
      ["-acodec", "libopus", "-vbr", "off", "-b:a", "192k",
       "-sample_fmt", "s16", "-vn"]⟩),
   ("mp3-320", ⟨".mp3", ["-acodec", "libmp3lame", "-b:a", "320k", "-vn"]⟩),
   ("mp3-128", ⟨".mp3", ["-acodec", "libmp3lame", "-b:a", "128k", "-vn"]⟩)]

def lookupCodec : List (String × CodecOpt) → String → Option CodecOpt
  | [], _ => none
  | (k, v) :: rest, c => if k = c then some v else lookupCodec rest c

/-! ## `Song` (the MetadataRecord) and its operations -/

structure Song where
  path : FsPath
  title : Option String
  album : Option String
  artist : Option String
  track : Option Nat
deriving DecidableEq, Repr

/-- Python truthiness of the optional track number (`None` and `0` falsy). -/
def truthyNat : Option Nat → Bool
  | none => false
  | some n => decide (n ≠ 0)

/-- Python truthiness of an optional string (`None` and `''` falsy). -/
def truthyStr : Option String → Bool
  | none => false
  | some s => decide (s ≠ "")

/-- Python `str.rstrip('_')`. -/
def rstripU (s : String) : String :=
  String.mk (rdropList (fun c => c == '_') s.data)

/-- Python `str.lower()` (ASCII suffices for the characters produced here). -/
def pyLower (s : String) : String := String.mk (s.data.map Char.toLower)

/-- Model of `clean_string` applied to a possibly absent tag value: `re.sub` raises
`TypeError` when handed `None` instead of a string. -/
def clean_string_opt (s : Option String) (trim : Option Int) : Except Err String :=
  match s with
  | none => .error .typeError
  | some str => .ok (clean_string str trim)

/-- Model of `Song.format_filename`: the FilenamePolicy. -/
def Song.format_filename (song : Song) : Except Err FsPath :=
  let s1 : String := if truthyNat song.track then pad2 (song.track.getD 0) ++ "_" else ""
  let s2 : String :=
    if truthyStr song.title then
      s1 ++ clean_string (song.title.getD "")
        (some ((64 : Int) - ((s1.length + (song.path.pysuffix).length : Nat) : Int)))
    else s1
  if s2.length < 1 then .error .valueError
  else .ok (song.path.withName (rstripU s2 ++ song.path.pysuffix))

/-- Model of `Song.rename`: the SafeMover. -/
def Song.rename (song : Song) (dest : FsPath) (w : World) :
    Except Err Song × World :=
  if !(w.fs.isFile song.path) then (.error .notFound, w)
  else if w.fs.pexists dest && !(w.fs.samefile song.path dest) then
    (.error .alreadyExists, w)
  else if song.path = dest then (.ok song, w)
  else
    let w1 := if !(w.fs.pexists dest.parent) then w.mkdirParents dest.parent else w
    match w1.renameFile song.path dest with
    | .ok w2 => (.ok { song with path := dest }, w2)
    | .error e => (.error e, w1)

/-- Model of `Song.sort`: the SortPolicy. -/
def Song.sort (song : Song) (base : FsPath) (w : World) :
    Except Err Song × World :=
  match clean_string_opt song.artist (some 64) with
  | .error e => (.error e, w)
  | .ok artist =>
    match clean_string_opt song.album (some 64) with
    | .error e => (.error e, w)
    | .ok album =>
      song.rename (base.joinParts [pyLower artist, pyLower album, song.path.name]) w

/-- Model of `Song.transcode`: the TranscodeOrchestrator. -/
def Song.transcode (song : Song) (codec : String) (w : World) :
    Except Err Song × World :=
  match lookupCodec codec_config codec with
  | none => (.error .valueError, w)
  | some opt =>
    let output := song.path.with_suffix opt.suffix
    if w.fs.pexists output then (.error .alreadyExists, w)
    else (.ok song, w.ffmpeg song.path output opt.options)

def Song.tempPath (song : Song) : FsPath :=
  song.path.withName ("temp." ++ song.path.name)

def Song.oldPath (song : Song) : FsPath :=
  song.path.parent.joinParts ["mutil_backup~", song.path.name]

/-- The steps of `Song.remove_cover` after the backup directory has been
ensured: run the encoder into `temp.<name>`, move the original to the backup
location (deleting the temporary file and re-raising when that move hits
`FileExistsError`), then move the temporary file into the original path. -/
def Song.remove_cover_core (song : Song) (w1 : World) : Except Err Song × World :=
  let temp := song.tempPath
  let old := song.oldPath
  let w2 := w1.ffmpeg song.path temp ["-c:a", "copy", "-vn"]
  match w2.renameFile song.path old with
  | .error .alreadyExists =>
    match w2.unlink temp with
    | .ok w3 => (.error .alreadyExists, w3)
    | .error e => (.error e, w2)
  | .error e => (.error e, w2)
  | .ok w3 =>
    match w3.renameFile temp song.path with
    | .ok w4 => (.ok song, w4)
    | .error e => (.error e, w3)

/-- Model of `Song.remove_cover`: the CoverStripOrchestrator. -/
def Song.remove_cover (song : Song) (w : World) : Except Err Song × World :=
  song.remove_cover_core
    (if !(w.fs.pexists song.oldPath.parent) then w.mkdirOne song.oldPath.parent else w)

/-! ## Small filesystem lemmas -/

theorem lookupPath_removePath_self (l : List (FsPath × Nat)) (p : FsPath) :
    lookupPath (removePath l p) p = none := by
  induction l with
  | nil => rfl
  | cons e rest ih =>
    match e with
    | (k, v) =>
      by_cases h : k = p
      · simp [removePath, h, ih]
      · simp [removePath, lookupPath, h, ih]

theorem lookupPath_removePath_ne (l : List (FsPath × Nat)) (p q : FsPath)
    (h : q ≠ p) : lookupPath (removePath l p) q = lookupPath l q := by
  induction l with
  | nil => rfl
  | cons e rest ih =>
    match e with
    | (k, v) =>
      by_cases hk : k = p
      · subst hk
        simp [removePath, lookupPath, Ne.symm h, ih]
      · by_cases hq : k = q
        · simp [removePath, lookupPath, hk, hq, h]
        · simp [removePath, lookupPath, hk, hq, ih]

theorem setFile_inode_self (fs : FS) (p : FsPath) (i : Nat) :
    (fs.setFile p i).inode p = some i := by
  simp [FS.setFile, FS.inode, lookupPath]

theorem setFile_inode_ne (fs : FS) (p : FsPath) (i : Nat) (q : FsPath)
    (h : q ≠ p) : (fs.setFile p i).inode q = fs.inode q := by
  simp [FS.setFile, FS.inode, lookupPath, Ne.symm h, lookupPath_removePath_ne _ _ _ h]

theorem removeFile_inode_ne (fs : FS) (p q : FsPath) (h : q ≠ p) :
    (fs.removeFile p).inode q = fs.inode q := by
  simp [FS.removeFile, FS.inode, lookupPath_removePath_ne _ _ _ h]

theorem createFile_inode_ne (fs : FS) (p q : FsPath) (h : q ≠ p) :
    (fs.createFile p).inode q = fs.inode q := by
  simp [FS.createFile, FS.inode]
  show ((fs.setFile p fs.nextIno).inode q) = fs.inode q
  exact setFile_inode_ne fs p fs.nextIno q h

theorem createFile_isFile_self (fs : FS) (p : FsPath) :
    (fs.createFile p).isFile p = true := by
  simp [FS.createFile, FS.isFile]
  show ((fs.setFile p fs.nextIno).inode p).isSome = true
  rw [setFile_inode_self]
  rfl

theorem memPath_append (l l' : List FsPath) (p : FsPath) :
    memPath (l ++ l') p = (memPath l p || memPath l' p) := by
  induction l with
  | nil => simp [memPath]
  | cons d rest ih =>
    by_cases h : d = p
    · simp [memPath, h]
    · simp [memPath, h, ih]

theorem createFile_dirs (fs : FS) (p : FsPath) :
    (fs.createFile p).dirs = fs.dirs := rfl

theorem ffmpeg_calls (w : World) (input output : FsPath) (args : List String) :
    (w.ffmpeg input output args).calls = w.calls ++ [⟨input, output, args⟩] := by
  unfold World.ffmpeg
  by_cases h : w.fs.isFile input && !(w.fs.pexists output)
  · simp only [FS.isFile] at h ⊢
    rw [if_pos h]
  · simp only [FS.isFile] at h ⊢
    rw [if_neg h]

theorem ffmpeg_moves (w : World) (input output : FsPath) (args : List String) :
    (w.ffmpeg input output args).moves = w.moves := by
  unfold World.ffmpeg
  by_cases h : w.fs.isFile input && !(w.fs.pexists output)
  · rw [if_pos h]
  · rw [if_neg h]

theorem ffmpeg_fs (w : World) (input output : FsPath) (args : List String) :
    (w.ffmpeg input output args).fs =
      if w.fs.isFile input && !(w.fs.pexists output) then w.fs.createFile output
      else w.fs := by
  unfold World.ffmpeg
  by_cases h : w.fs.isFile input && !(w.fs.pexists output)
  · rw [if_pos h, if_pos h]
  · rw [if_neg h, if_neg h]

/-- Characterization of a successful `Path.rename` system call. -/
theorem renameFile_ok (w : World) (src dst : FsPath) (w' : World)
    (h : w.renameFile src dst = .ok w') :
    (∃ i, w.fs.inode src = some i ∧ w.fs.inode dst = some i ∧
        w'.fs = w.fs ∧ w'.calls = w.calls ∧ w'.moves = w.moves ++ [(src, dst)])
    ∨ (∃ i, w.fs.inode src = some i ∧ w.fs.pexists dst = false ∧
        w'.fs = (w.fs.removeFile src).setFile dst i ∧ w'.calls = w.calls ∧
        w'.moves = w.moves ++ [(src, dst)]) := by
  unfold World.renameFile at h
  cases hi : w.fs.inode src with
  | none => simp [hi] at h
  | some i =>
    simp only [hi] at h
    by_cases hex : w.fs.pexists dst = true
    · rw [if_pos hex] at h
      by_cases hdi : w.fs.inode dst = some i
      · rw [if_pos hdi] at h
        injection h with h
        subst h
        exact Or.inl ⟨i, rfl, hdi, rfl, rfl, rfl⟩
      · rw [if_neg hdi] at h
        exact absurd h (by simp)
    · rw [if_neg hex] at h
      injection h with h
      subst h
      exact Or.inr ⟨i, rfl, by simpa using hex, rfl, rfl, rfl⟩

/-- Characterization of a failing `Path.rename` system call. -/
theorem renameFile_err (w : World) (src dst : FsPath) (e : Err)
    (h : w.renameFile src dst = .error e) :
    (e = .notFound ∧ w.fs.inode src = none)
    ∨ (e = .alreadyExists ∧ ∃ i, w.fs.inode src = some i ∧
        w.fs.pexists dst = true ∧ ¬ w.fs.inode dst = some i) := by
  unfold World.renameFile at h
  cases hi : w.fs.inode src with
  | none =>
    simp only [hi] at h
    injection h with h
    exact Or.inl ⟨h.symm, rfl⟩
  | some i =>
    simp only [hi] at h
    by_cases hex : w.fs.pexists dst = true
    · rw [if_pos hex] at h
      by_cases hdi : w.fs.inode dst = some i
      · rw [if_pos hdi] at h; exact absurd h (by simp)
      · rw [if_neg hdi] at h
        injection h with h
        exact Or.inr ⟨h.symm, i, rfl, hex, hdi⟩
    · rw [if_neg hex] at h
      exact absurd h (by simp)

theorem renameFile_ok_isFile_dst (w : World) (src dst : FsPath) (w' : World)
    (h : w.renameFile src dst = .ok w') : w'.fs.isFile dst = true := by
  rcases renameFile_ok w src dst w' h with ⟨i, _, hdi, hfs, _, _⟩ | ⟨i, _, _, hfs, _, _⟩
  · rw [FS.isFile, hfs, hdi]; rfl
  · rw [FS.isFile, hfs, setFile_inode_self]; rfl

theorem renameFile_ok_dirs (w : World) (src dst : FsPath) (w' : World)
    (h : w.renameFile src dst = .ok w') : w'.fs.dirs = w.fs.dirs := by
  rcases renameFile_ok w src dst w' h with ⟨i, _, _, hfs, _, _⟩ | ⟨i, _, _, hfs, _, _⟩
  · rw [hfs]
  · rw [hfs]; rfl

theorem renameFile_ok_inode_other (w : World) (src dst : FsPath) (w' : World)
    (q : FsPath) (h : w.renameFile src dst = .ok w')
    (h1 : q ≠ src) (h2 : q ≠ dst) : w'.fs.inode q = w.fs.inode q := by
  rcases renameFile_ok w src dst w' h with ⟨i, _, _, hfs, _, _⟩ | ⟨i, _, _, hfs, _, _⟩
  · rw [hfs]
  · rw [hfs, setFile_inode_ne _ _ _ _ h2, removeFile_inode_ne _ _ _ h1]

theorem samefile_self (fs : FS) (p : FsPath) (h : fs.isFile p = true) :
    fs.samefile p p = true := by
  unfold FS.samefile
  cases hi : fs.inode p with
  | none => rw [FS.isFile, hi] at h; exact absurd h (by simp)
  | some i => simp [hi]

theorem samefile_true_elim (fs : FS) (a b : FsPath) (h : fs.samefile a b = true) :
    ∃ i, fs.inode a = some i ∧ fs.inode b = some i := by
  unfold FS.samefile at h
  cases hia : fs.inode a with
  | none => rw [hia] at h; exact absurd h (by simp)
  | some i =>
    cases hib : fs.inode b with
    | none => rw [hia, hib] at h; exact absurd h (by simp)
    | some j =>
      rw [hia, hib] at h
      simp only [beq_iff_eq] at h
      exact ⟨i, rfl, by rw [h]⟩

theorem mkdirParents_inode (w : World) (d p : FsPath) :
    (w.mkdirParents d).fs.inode p = w.fs.inode p := rfl

theorem mkdirParents_pexists_mono (w : World) (d p : FsPath)
    (h : w.fs.pexists p = true) : (w.mkdirParents d).fs.pexists p = true := by
  unfold FS.pexists FS.isDir at h ⊢
  unfold World.mkdirParents
  simp only [memPath_append]
  simp only [Bool.or_eq_true] at h ⊢
  rcases h with h | h
  · exact Or.inl h
  · exact Or.inr (Or.inl h)

/-- Characterization of a successful `Song.rename`: the record's path is the
destination and the destination is a file afterwards. -/
theorem song_rename_ok_path (song : Song) (dest : FsPath) (w : World)
    (song' : Song) (w' : World)
    (h : song.rename dest w = (.ok song', w')) :
    song'.path = dest ∧ w'.fs.isFile dest = true := by
  by_cases h1 : w.fs.isFile song.path = true
  · by_cases h2 : (w.fs.pexists dest && !(w.fs.samefile song.path dest)) = true
    · simp [Song.rename, h1, h2] at h
    · have h2' : (w.fs.pexists dest && !(w.fs.samefile song.path dest)) = false := by
        simpa using h2
      by_cases h3 : song.path = dest
      · subst h3
        simp [Song.rename, h1, h2'] at h
        obtain ⟨h4, h5⟩ := h
        subst h4; subst h5
        exact ⟨rfl, h1⟩
      · by_cases h4 : w.fs.pexists dest.parent = true
        · simp [Song.rename, h1, h2', h3, h4] at h
          cases hrf : w.renameFile song.path dest with
          | ok w2 =>
            rw [hrf] at h
            simp at h
            obtain ⟨h5, h6⟩ := h
            subst h5; subst h6
            exact ⟨rfl, renameFile_ok_isFile_dst w song.path dest w2 hrf⟩
          | error e =>
            rw [hrf] at h
            simp at h
        · simp [Song.rename, h1, h2', h3, h4] at h
          cases hrf : (w.mkdirParents dest.parent).renameFile song.path dest with
          | ok w2 =>
            rw [hrf] at h
            simp at h
            obtain ⟨h5, h6⟩ := h
            subst h5; subst h6
            exact ⟨rfl, renameFile_ok_isFile_dst _ song.path dest w2 hrf⟩
          | error e =>
            rw [hrf] at h
            simp at h
  · have h1' : w.fs.isFile song.path = false := by simpa using h1
    simp [Song.rename, h1'] at h

/-- C1: `Song.rename` (the SafeMover `move`) fails with `AlreadyExists` and
leaves the world untouched when the destination exists and is not the same
file as the source, where sameness is decided by inode identity and not by
path text; renaming a file to its own path is a no-op success; and renaming
onto an existing destination that *is* the same file (same inode, different
path text) is not a collision — it succeeds without touching any file. -/
theorem c1_rename_collision_and_self (song : Song) (w : World) (dest : FsPath)
    (hsrc : w.fs.isFile song.path = true) :
    ((w.fs.pexists dest = true ∧ w.fs.samefile song.path dest = false) →
      song.rename dest w = (.error .alreadyExists, w))
    ∧ (song.path = dest → song.rename dest w = (.ok song, w))
    ∧ ((w.fs.pexists dest = true ∧ w.fs.samefile song.path dest = true ∧
          song.path ≠ dest) →
      ∃ w', song.rename dest w = (.ok { song with path := dest }, w')
        ∧ w'.fs.files = w.fs.files) := by
  refine ⟨?_, ?_, ?_⟩
  · rintro ⟨hex, hsf⟩
    simp [Song.rename, hsrc, hex, hsf]
  · intro h3
    subst h3
    have hsf := samefile_self w.fs song.path hsrc
    simp [Song.rename, hsrc, hsf]
  · rintro ⟨hex, hsf, hne⟩
    obtain ⟨i, hsi, hdi⟩ := samefile_true_elim w.fs song.path dest hsf
    have hrf : ∀ v : World, v.fs.inode song.path = some i →
        v.fs.pexists dest = true → v.fs.inode dest = some i →
        v.renameFile song.path dest =
          .ok { v with moves := v.moves ++ [(song.path, dest)] } := by
      intro v h1v h2v h3v
      unfold World.renameFile
      rw [h1v]
      simp [h2v, h3v]
    by_cases h4 : w.fs.pexists dest.parent = true
    · refine ⟨{ w with moves := w.moves ++ [(song.path, dest)] }, ?_, rfl⟩
      simp [Song.rename, hsrc, hex, hsf, hne, h4, hrf w hsi hex hdi]
    · refine ⟨{ w.mkdirParents dest.parent with
          moves := (w.mkdirParents dest.parent).moves ++ [(song.path, dest)] }, ?_, rfl⟩
      simp [Song.rename, hsrc, hex, hsf, hne, h4,
        hrf (w.mkdirParents dest.parent)
          (by rw [mkdirParents_inode]; exact hsi)
          (mkdirParents_pexists_mono w dest.parent dest hex)
          (by rw [mkdirParents_inode]; exact hdi)]

def songC1 : Song := ⟨⟨["d", "a.mp3"]⟩, none, none, none, none⟩

def worldC1 : World :=
  ⟨⟨[(⟨["d", "a.mp3"]⟩, 0), (⟨["d", "b.mp3"]⟩, 1)], [], 7⟩, [], []⟩

/-- Witness for C1: a concrete collision is refused and the world is kept. -/
theorem c1_rename_witness :
    Song.rename songC1 ⟨["d", "b.mp3"]⟩ worldC1 =
      (.error .alreadyExists, worldC1) :=
  (c1_rename_collision_and_self songC1 worldC1 ⟨["d", "b.mp3"]⟩ (by decide)).1
    ⟨by decide, by decide⟩

theorem pexists_of_isFile (fs : FS) (p : FsPath) (h : fs.isFile p = true) :
    fs.pexists p = true := by
  unfold FS.pexists
  rw [h]
  rfl

/-- A successful `remove_cover_core` pass returns the record unchanged, and
the rename of the temporary file into the original path is its last
successful step. -/
theorem remove_cover_core_ok (song : Song) (w1 : World) (song' : Song) (w' : World)
    (h : song.remove_cover_core w1 = (.ok song', w')) :
    song' = song ∧ ∃ w3,
      (w1.ffmpeg song.path song.tempPath ["-c:a", "copy", "-vn"]).renameFile
          song.path song.oldPath = .ok w3
      ∧ w3.renameFile song.tempPath song.path = .ok w' := by
  simp only [Song.remove_cover_core] at h
  cases hr1 : (w1.ffmpeg song.path song.tempPath
      ["-c:a", "copy", "-vn"]).renameFile song.path song.oldPath with
  | error e =>
    simp only [hr1] at h
    match e, h with
    | .notFound, h => simp at h
    | .typeError, h => simp at h
    | .attributeError, h => simp at h
    | .valueError, h => simp at h
    | .alreadyExists, h =>
      cases hu : (w1.ffmpeg song.path song.tempPath
          ["-c:a", "copy", "-vn"]).unlink song.tempPath with
      | ok w3 => simp only [hu] at h; simp at h
      | error e2 => simp only [hu] at h; simp at h
  | ok w3 =>
    simp only [hr1] at h
    cases hr2 : w3.renameFile song.tempPath song.path with
    | error e => simp only [hr2] at h; simp at h
    | ok w4 =>
      simp only [hr2] at h
      simp only [Prod.mk.injEq] at h
      obtain ⟨h5, h6⟩ := h
      injection h5 with h5
      exact ⟨h5.symm, w3, rfl, h6 ▸ hr2⟩

/-- C2: after every operation that returns successfully, the record's `path`
refers to an existing file; `rename` additionally updates the path field to
the destination, while `remove_cover` and `transcode` leave it unchanged. -/
theorem c2_path_invariant (song : Song) (w : World)
    (hsrc : w.fs.isFile song.path = true) :
    (∀ dest song' w', song.rename dest w = (.ok song', w') →
        w'.fs.isFile song'.path = true ∧ song'.path = dest)
    ∧ (∀ base song' w', song.sort base w = (.ok song', w') →
        w'.fs.isFile song'.path = true)
    ∧ (∀ song' w', song.remove_cover w = (.ok song', w') →
        w'.fs.isFile song'.path = true ∧ song'.path = song.path)
    ∧ (∀ codec song' w', song.transcode codec w = (.ok song', w') →
        w'.fs.isFile song'.path = true ∧ song'.path = song.path) := by
  refine ⟨?_, ?_, ?_, ?_⟩
  · intro dest song' w' h
    obtain ⟨hp, hf⟩ := song_rename_ok_path song dest w song' w' h
    exact ⟨hp ▸ hf, hp⟩
  · intro base song' w' h
    unfold Song.sort at h
    cases hA : song.artist with
    | none => rw [hA] at h; simp [clean_string_opt] at h
    | some a =>
      rw [hA] at h
      cases hB : song.album with
      | none => rw [hB] at h; simp [clean_string_opt] at h
      | some b =>
        rw [hB] at h
        simp only [clean_string_opt] at h
        obtain ⟨hp, hf⟩ := song_rename_ok_path _ _ _ _ _ h
        exact hp ▸ hf
  · intro song' w' h
    unfold Song.remove_cover at h
    obtain ⟨hs, w3, hr1, hr2⟩ := remove_cover_core_ok song _ song' w' h
    subst hs
    exact ⟨renameFile_ok_isFile_dst _ _ _ _ hr2, rfl⟩
  · intro codec song' w' h
    unfold Song.transcode at h
    cases hC : lookupCodec codec_config codec with
    | none => rw [hC] at h; simp at h
    | some opt =>
      simp only [hC] at h
      by_cases hex : w.fs.pexists (song.path.with_suffix opt.suffix) = true
      · rw [if_pos hex] at h; simp at h
      · rw [if_neg hex] at h
        simp only [Prod.mk.injEq] at h
        obtain ⟨h5, h6⟩ := h
        injection h5 with h5
        subst h5; subst h6
        refine ⟨?_, rfl⟩
        have hne : song.path ≠ song.path.with_suffix opt.suffix := by
          intro e
          exact hex (e ▸ pexists_of_isFile w.fs song.path hsrc)
        rw [FS.isFile, ffmpeg_fs]
        by_cases hcr : (w.fs.isFile song.path &&
            !(w.fs.pexists (song.path.with_suffix opt.suffix))) = true
        · rw [if_pos hcr, createFile_inode_ne _ _ _ hne]
          exact hsrc
        · rw [if_neg hcr]
          exact hsrc

def worldC2 : World := ⟨⟨[(⟨["d", "a.mp3"]⟩, 0)], [⟨["d"]⟩], 7⟩, [], []⟩

/-- Witness for C2: a concrete successful rename leaves the record's path at
the destination and the destination exists as a file. -/
theorem c2_path_invariant_witness :
    (⟨⟨[(⟨["d", "c.mp3"]⟩, 0)], [⟨["d"]⟩], 7⟩, [],
        [(⟨["d", "a.mp3"]⟩, ⟨["d", "c.mp3"]⟩)]⟩ : World).fs.isFile
      (⟨⟨["d", "c.mp3"]⟩, none, none, none, none⟩ : Song).path = true
    ∧ (⟨⟨["d", "c.mp3"]⟩, none, none, none, none⟩ : Song).path = ⟨["d", "c.mp3"]⟩ :=
  (c2_path_invariant songC1 worldC2 (by decide)).1 ⟨["d", "c.mp3"]⟩
    ⟨⟨["d", "c.mp3"]⟩, none, none, none, none⟩
    ⟨⟨[(⟨["d", "c.mp3"]⟩, 0)], [⟨["d"]⟩], 7⟩, [],
      [(⟨["d", "a.mp3"]⟩, ⟨["d", "c.mp3"]⟩)]⟩ rfl

/-! ## Path facts for `remove_cover` -/

theorem temp_name_ne (n : String) : "temp." ++ n ≠ n := by
  intro e
  have h := congrArg String.length e
  rw [String.length_append] at h
  rw [show ("temp." : String).length = 5 from rfl] at h
  omega

theorem temp_name_ne_backup (n : String) : "temp." ++ n ≠ "mutil_backup~" := by
  intro e
  have h := congrArg String.data e
  rw [String.data_append] at h
  have e1 : ("temp." : String).data ++ n.data = 't' :: ("emp." : String).data ++ n.data := rfl
  have e2 : ("mutil_backup~" : String).data = 'm' :: ("util_backup~" : String).data := rfl
  rw [e1, e2] at h
  injection h with h1 h2
  exact absurd h1 (by decide)

theorem concat_eq_self_last (l : List String) (x : String) (hne : l ≠ [])
    (h : l.dropLast ++ [x] = l) : x = l.getLast hne := by
  have h2 : l.dropLast ++ [x] = l.dropLast ++ [l.getLast hne] :=
    h.trans (List.dropLast_append_getLast hne).symm
  simpa using List.append_cancel_left h2

theorem name_eq_getLast (p : FsPath) (hne : p.parts ≠ []) :
    p.name = p.parts.getLast hne := by
  unfold FsPath.name
  rw [List.getLastD_eq_getLast?, List.getLast?_eq_getLast _ hne]
  rfl

theorem tempPath_parts (song : Song) :
    song.tempPath.parts = song.path.parts.dropLast ++ ["temp." ++ song.path.name] := rfl

theorem oldPath_parts (song : Song) :
    song.oldPath.parts = song.path.parts.dropLast ++
      ("mutil_backup~" ::
        (if (song.path.name == "") = true then [] else [song.path.name])) := by
  unfold Song.oldPath FsPath.joinParts FsPath.parent
  have hb : (("mutil_backup~" : String) == "") = false := by decide
  by_cases h : (song.path.name == "") = true
  · simp [List.filter_cons, h, hb]
  · simp [List.filter_cons, h, hb]

theorem tempPath_ne_path (song : Song) : song.tempPath ≠ song.path := by
  intro e
  have he : song.path.parts.dropLast ++ ["temp." ++ song.path.name] = song.path.parts :=
    congrArg FsPath.parts e
  by_cases hne : song.path.parts = []
  · rw [hne] at he; simp at he
  · have hx := concat_eq_self_last _ _ hne he
    rw [← name_eq_getLast song.path hne] at hx
    exact temp_name_ne song.path.name hx

theorem beq_empty_eq (s : String) (h : (s == "") = true) : s = "" :=
  beq_iff_eq.mp h

theorem oldPath_ne_path (song : Song) : song.oldPath ≠ song.path := by
  intro e
  have he := congrArg FsPath.parts e
  rw [oldPath_parts] at he
  by_cases hname : (song.path.name == "") = true
  · rw [if_pos hname] at he
    by_cases hne : song.path.parts = []
    · rw [hne] at he; simp at he
    · have hx := concat_eq_self_last _ _ hne he
      rw [← name_eq_getLast song.path hne] at hx
      rw [beq_empty_eq _ hname] at hx
      exact absurd hx (by decide)
  · rw [if_neg hname] at he
    have hlen := congrArg List.length he
    rw [List.length_append, List.length_dropLast] at hlen
    by_cases hne : song.path.parts = []
    · rw [hne] at hlen; simp at hlen
    · have hpos : 0 < song.path.parts.length := List.length_pos.mpr hne
      simp at hlen
      omega

theorem oldPath_ne_tempPath (song : Song) : song.oldPath ≠ song.tempPath := by
  intro e
  have he := congrArg FsPath.parts e
  rw [oldPath_parts, tempPath_parts] at he
  by_cases hname : (song.path.name == "") = true
  · rw [if_pos hname] at he
    have hx := List.append_cancel_left he
    injection hx with hx1 hx2
    exact temp_name_ne_backup song.path.name hx1.symm
  · rw [if_neg hname] at he
    have hlen := congrArg List.length he
    simp at hlen

theorem oldPath_parent_ne_tempPath (song : Song) :
    song.oldPath.parent ≠ song.tempPath := by
  intro e
  have he := congrArg FsPath.parts e
  show False
  have hop : song.oldPath.parent.parts = song.oldPath.parts.dropLast := rfl
  rw [hop, oldPath_parts, tempPath_parts] at he
  by_cases hname : (song.path.name == "") = true
  · rw [if_pos hname] at he
    rw [show (("mutil_backup~" :: []) : List String) = ["mutil_backup~"] from rfl,
      List.dropLast_concat] at he
    have hlen := congrArg List.length he
    simp at hlen
  · rw [if_neg hname] at he
    rw [show (("mutil_backup~" :: [song.path.name]) : List String) =
      ["mutil_backup~"] ++ [song.path.name] from rfl, ← List.append_assoc,
      List.dropLast_concat] at he
    have hx := List.append_cancel_left he
    injection hx with hx1 hx2
    exact temp_name_ne_backup song.path.name hx1.symm

/-! ## More world lemmas for `remove_cover` -/

theorem removeFile_isFile_self (fs : FS) (p : FsPath) :
    (fs.removeFile p).isFile p = false := by
  unfold FS.isFile FS.removeFile FS.inode
  simp only
  rw [lookupPath_removePath_self]
  rfl

theorem createFile_pexists_other (fs : FS) (p q : FsPath) (h : q ≠ p) :
    (fs.createFile p).pexists q = fs.pexists q := by
  unfold FS.pexists FS.isFile FS.isDir
  rw [createFile_inode_ne _ _ _ h, createFile_dirs]

theorem samefile_false_elim (fs : FS) (a b : FsPath) (i : Nat)
    (h : fs.samefile a b = false) (ha : fs.inode a = some i) :
    ¬ fs.inode b = some i := by
  intro hb
  unfold FS.samefile at h
  rw [ha, hb] at h
  simp at h

theorem unlink_ok (w : World) (p : FsPath) (w3 : World)
    (h : w.unlink p = .ok w3) :
    w3.fs = w.fs.removeFile p ∧ w3.calls = w.calls ∧ w3.moves = w.moves := by
  unfold World.unlink at h
  by_cases hf : w.fs.isFile p = true
  · rw [if_pos hf] at h
    injection h with h
    subst h
    exact ⟨rfl, rfl, rfl⟩
  · rw [if_neg hf] at h
    exact absurd h (by simp)

theorem mkdirOne_inode (w : World) (d p : FsPath) :
    (w.mkdirOne d).fs.inode p = w.fs.inode p := rfl

theorem mkdirOne_moves (w : World) (d : FsPath) :
    (w.mkdirOne d).moves = w.moves := rfl

theorem mkdirOne_pexists_mono (w : World) (d p : FsPath)
    (h : w.fs.pexists p = true) : (w.mkdirOne d).fs.pexists p = true := by
  unfold FS.pexists FS.isDir at h ⊢
  unfold World.mkdirOne
  simp only [memPath_append]
  simp only [Bool.or_eq_true] at h ⊢
  rcases h with h | h
  · exact Or.inl h
  · exact Or.inr (Or.inl h)

theorem mkdirOne_pexists_other (w : World) (d p : FsPath) (h : p ≠ d) :
    (w.mkdirOne d).fs.pexists p = w.fs.pexists p := by
  unfold FS.pexists FS.isDir
  unfold World.mkdirOne
  simp only [memPath_append]
  have hm : memPath [d] p = false := by
    show (if d = p then true else memPath [] p) = false
    rw [if_neg (Ne.symm h)]
    rfl
  rw [hm, Bool.or_false]
  rfl

theorem mkdirOne_samefile (w : World) (d a b : FsPath) :
    (w.mkdirOne d).fs.samefile a b = w.fs.samefile a b := rfl

theorem renameFile_ok_moves (w : World) (src dst : FsPath) (w' : World)
    (h : w.renameFile src dst = .ok w') : w'.moves = w.moves ++ [(src, dst)] := by
  rcases renameFile_ok w src dst w' h with ⟨i, _, _, _, _, hm⟩ | ⟨i, _, _, _, _, hm⟩ <;>
    exact hm

/-- If the backup destination already exists as a distinct file, the core
sequence fails with `AlreadyExists` and the temporary file has been deleted
before the failure propagates. -/
theorem remove_cover_core_collision (song : Song) (w1 : World)
    (hf : w1.fs.isFile song.path = true)
    (ht : w1.fs.pexists song.tempPath = false)
    (ho : w1.fs.pexists song.oldPath = true)
    (hsf : w1.fs.samefile song.path song.oldPath = false) :
    ∃ w', song.remove_cover_core w1 = (.error .alreadyExists, w')
      ∧ w'.fs.isFile song.tempPath = false := by
  obtain ⟨i, hi⟩ : ∃ i, w1.fs.inode song.path = some i := by
    cases hx : w1.fs.inode song.path with
    | none => rw [FS.isFile, hx] at hf; exact absurd hf (by simp)
    | some i => exact ⟨i, rfl⟩
  have hcr : (w1.fs.isFile song.path && !(w1.fs.pexists song.tempPath)) = true := by
    rw [hf, ht]; rfl
  have hw2fs : (w1.ffmpeg song.path song.tempPath ["-c:a", "copy", "-vn"]).fs
      = w1.fs.createFile song.tempPath := by
    rw [ffmpeg_fs, if_pos hcr]
  have hi2 : (w1.ffmpeg song.path song.tempPath ["-c:a", "copy", "-vn"]).fs.inode
      song.path = some i := by
    rw [hw2fs, createFile_inode_ne _ _ _ (Ne.symm (tempPath_ne_path song))]
    exact hi
  have ho2 : (w1.ffmpeg song.path song.tempPath ["-c:a", "copy", "-vn"]).fs.pexists
      song.oldPath = true := by
    rw [hw2fs, createFile_pexists_other _ _ _ (oldPath_ne_tempPath song)]
    exact ho
  have hio2 : ¬ (w1.ffmpeg song.path song.tempPath ["-c:a", "copy", "-vn"]).fs.inode
      song.oldPath = some i := by
    rw [hw2fs, createFile_inode_ne _ _ _ (oldPath_ne_tempPath song)]
    exact samefile_false_elim w1.fs song.path song.oldPath i hsf hi
  have hrf : (w1.ffmpeg song.path song.tempPath ["-c:a", "copy", "-vn"]).renameFile
      song.path song.oldPath = .error .alreadyExists := by
    unfold World.renameFile
    simp only [hi2]
    rw [if_pos ho2, if_neg hio2]
  have htf : (w1.ffmpeg song.path song.tempPath ["-c:a", "copy", "-vn"]).fs.isFile
      song.tempPath = true := by
    rw [hw2fs]
    exact createFile_isFile_self _ _
  have hul : (w1.ffmpeg song.path song.tempPath ["-c:a", "copy", "-vn"]).unlink
      song.tempPath =
      .ok { w1.ffmpeg song.path song.tempPath ["-c:a", "copy", "-vn"] with
        fs := (w1.ffmpeg song.path song.tempPath
          ["-c:a", "copy", "-vn"]).fs.removeFile song.tempPath } := by
    unfold World.unlink
    rw [if_pos htf]
  refine ⟨{ w1.ffmpeg song.path song.tempPath ["-c:a", "copy", "-vn"] with
      fs := (w1.ffmpeg song.path song.tempPath
        ["-c:a", "copy", "-vn"]).fs.removeFile song.tempPath }, ?_, ?_⟩
  · simp only [Song.remove_cover_core, hrf, hul]
  · exact removeFile_isFile_self _ _

/-- The rename trace of the core sequence: the move of the temporary file
into the original path only ever appears after the move of the original to
the backup location. -/
theorem remove_cover_core_moves (song : Song) (w1 : World) (r : Except Err Song)
    (w' : World) (h : song.remove_cover_core w1 = (r, w')) :
    w'.moves = w1.moves ∨ w'.moves = w1.moves ++ [(song.path, song.oldPath)] ∨
      w'.moves = w1.moves ++
        [(song.path, song.oldPath), (song.tempPath, song.path)] := by
  simp only [Song.remove_cover_core] at h
  have hw2m : (w1.ffmpeg song.path song.tempPath ["-c:a", "copy", "-vn"]).moves
      = w1.moves := ffmpeg_moves _ _ _ _
  cases hr1 : (w1.ffmpeg song.path song.tempPath
      ["-c:a", "copy", "-vn"]).renameFile song.path song.oldPath with
  | error e =>
    simp only [hr1] at h
    match e, h with
    | .notFound, h =>
      obtain ⟨-, h2⟩ := Prod.mk.injEq .. ▸ h
      subst h2; exact Or.inl hw2m
    | .typeError, h =>
      obtain ⟨-, h2⟩ := Prod.mk.injEq .. ▸ h
      subst h2; exact Or.inl hw2m
    | .attributeError, h =>
      obtain ⟨-, h2⟩ := Prod.mk.injEq .. ▸ h
      subst h2; exact Or.inl hw2m
    | .valueError, h =>
      obtain ⟨-, h2⟩ := Prod.mk.injEq .. ▸ h
      subst h2; exact Or.inl hw2m
    | .alreadyExists, h =>
      cases hu : (w1.ffmpeg song.path song.tempPath
          ["-c:a", "copy", "-vn"]).unlink song.tempPath with
      | ok w3 =>
        simp only [hu] at h
        obtain ⟨-, h2⟩ := Prod.mk.injEq .. ▸ h
        subst h2
        left
        rw [(unlink_ok _ _ _ hu).2.2, hw2m]
      | error e2 =>
        simp only [hu] at h
        obtain ⟨-, h2⟩ := Prod.mk.injEq .. ▸ h
        subst h2; exact Or.inl hw2m
  | ok w3 =>
    simp only [hr1] at h
    have hm3 : w3.moves = w1.moves ++ [(song.path, song.oldPath)] := by
      rw [renameFile_ok_moves _ _ _ _ hr1, hw2m]
    cases hr2 : w3.renameFile song.tempPath song.path with
    | error e =>
      simp only [hr2] at h
      obtain ⟨-, h2⟩ := Prod.mk.injEq .. ▸ h
      subst h2; exact Or.inr (Or.inl hm3)
    | ok w4 =>
      simp only [hr2] at h
      obtain ⟨-, h2⟩ := Prod.mk.injEq .. ▸ h
      subst h2
      right; right
      rw [renameFile_ok_moves _ _ _ _ hr2, hm3, List.append_assoc]
      rfl

/-- The content of the original file is never deleted by the core sequence:
its inode survives, at the original path or at the backup location. -/
theorem remove_cover_core_backup (song : Song) (w1 : World) (i : Nat)
    (hi : w1.fs.inode song.path = some i) (r : Except Err Song) (w' : World)
    (h : song.remove_cover_core w1 = (r, w')) :
    w'.fs.inode song.path = some i ∨ w'.fs.inode song.oldPath = some i := by
  simp only [Song.remove_cover_core] at h
  have hi2 : (w1.ffmpeg song.path song.tempPath ["-c:a", "copy", "-vn"]).fs.inode
      song.path = some i := by
    rw [ffmpeg_fs]
    by_cases hc : (w1.fs.isFile song.path && !(w1.fs.pexists song.tempPath)) = true
    · rw [if_pos hc, createFile_inode_ne _ _ _ (Ne.symm (tempPath_ne_path song))]
      exact hi
    · rw [if_neg hc]; exact hi
  have hio2 : (w1.ffmpeg song.path song.tempPath ["-c:a", "copy", "-vn"]).fs.inode
      song.oldPath = w1.fs.inode song.oldPath := by
    rw [ffmpeg_fs]
    by_cases hc : (w1.fs.isFile song.path && !(w1.fs.pexists song.tempPath)) = true
    · rw [if_pos hc, createFile_inode_ne _ _ _ (oldPath_ne_tempPath song)]
    · rw [if_neg hc]
  cases hr1 : (w1.ffmpeg song.path song.tempPath
      ["-c:a", "copy", "-vn"]).renameFile song.path song.oldPath with
  | error e =>
    simp only [hr1] at h
    match e, h with
    | .notFound, h =>
      obtain ⟨-, h2⟩ := Prod.mk.injEq .. ▸ h
      subst h2; exact Or.inl hi2
    | .typeError, h =>
      obtain ⟨-, h2⟩ := Prod.mk.injEq .. ▸ h
      subst h2; exact Or.inl hi2
    | .attributeError, h =>
      obtain ⟨-, h2⟩ := Prod.mk.injEq .. ▸ h
      subst h2; exact Or.inl hi2
    | .valueError, h =>
      obtain ⟨-, h2⟩ := Prod.mk.injEq .. ▸ h
      subst h2; exact Or.inl hi2
    | .alreadyExists, h =>
      cases hu : (w1.ffmpeg song.path song.tempPath
          ["-c:a", "copy", "-vn"]).unlink song.tempPath with
      | ok w3 =>
        simp only [hu] at h
        obtain ⟨-, h2⟩ := Prod.mk.injEq .. ▸ h
        subst h2
        left
        rw [(unlink_ok _ _ _ hu).1,
          removeFile_inode_ne _ _ _ (Ne.symm (tempPath_ne_path song))]
        exact hi2
      | error e2 =>
        simp only [hu] at h
        obtain ⟨-, h2⟩ := Prod.mk.injEq .. ▸ h
        subst h2; exact Or.inl hi2
  | ok w3 =>
    simp only [hr1] at h
    have hstep : w3.fs.inode song.path = some i ∧ w3.fs.inode song.oldPath = some i
        ∨ w3.fs.inode song.oldPath = some i := by
      rcases renameFile_ok _ _ _ _ hr1 with ⟨j, hsj, hdj, hfs3, -, -⟩ |
        ⟨j, hsj, -, hfs3, -, -⟩
      · have hji : j = i := by
          rw [hi2] at hsj
          injection hsj with hsj
          exact hsj.symm
        subst hji
        exact Or.inl ⟨hfs3 ▸ hi2, hfs3 ▸ hdj⟩
      · have hji : j = i := by
          rw [hi2] at hsj
          injection hsj with hsj
          exact hsj.symm
        subst hji
        right
        rw [hfs3, setFile_inode_self]
    have hold3 : w3.fs.inode song.oldPath = some i := by
      rcases hstep with ⟨-, h2⟩ | h2 <;> exact h2
    cases hr2 : w3.renameFile song.tempPath song.path with
    | error e =>
      simp only [hr2] at h
      obtain ⟨-, h2⟩ := Prod.mk.injEq .. ▸ h
      subst h2; exact Or.inr hold3
    | ok w4 =>
      simp only [hr2] at h
      obtain ⟨-, h2⟩ := Prod.mk.injEq .. ▸ h
      subst h2
      right
      rcases renameFile_ok _ _ _ _ hr2 with ⟨k, -, -, hfs4, -, -⟩ |
        ⟨k, -, -, hfs4, -, -⟩
      · rw [hfs4]; exact hold3
      · rw [hfs4, setFile_inode_ne _ _ _ _ (oldPath_ne_path song),
          removeFile_inode_ne _ _ _ (oldPath_ne_tempPath song)]
        exact hold3

/-- C3: in `Song.remove_cover`, (1) when moving the original to the backup
location fails because the backup destination already exists, the temporary
stripped file is deleted before the failure propagates; (2) the move of the
temporary file into the original path is only ever performed after the
backup move succeeded (visible in the rename trace); (3) the original file's
content is never deleted — its inode always remains, at the original path or
at the backup location. -/
theorem c3_remove_cover_safety (song : Song) (w : World) :
    ((w.fs.isFile song.path = true → w.fs.pexists song.tempPath = false →
      w.fs.pexists song.oldPath = true →
      w.fs.samefile song.path song.oldPath = false →
      ∃ w', song.remove_cover w = (.error .alreadyExists, w')
        ∧ w'.fs.isFile song.tempPath = false))
    ∧ (∀ r w', song.remove_cover w = (r, w') →
        w'.moves = w.moves ∨ w'.moves = w.moves ++ [(song.path, song.oldPath)] ∨
        w'.moves = w.moves ++
          [(song.path, song.oldPath), (song.tempPath, song.path)])
    ∧ (∀ i r w', w.fs.inode song.path = some i →
        song.remove_cover w = (r, w') →
        w'.fs.inode song.path = some i ∨ w'.fs.inode song.oldPath = some i) := by
  refine ⟨?_, ?_, ?_⟩
  · intro hf ht ho hsf
    unfold Song.remove_cover
    by_cases hmk : (!(w.fs.pexists song.oldPath.parent)) = true
    · rw [if_pos hmk]
      exact remove_cover_core_collision song _ hf
        (by rw [mkdirOne_pexists_other _ _ _
            (Ne.symm (oldPath_parent_ne_tempPath song))]
            exact ht)
        (mkdirOne_pexists_mono _ _ _ ho) hsf
    · rw [if_neg hmk]
      exact remove_cover_core_collision song w hf ht ho hsf
  · intro r w' h
    unfold Song.remove_cover at h
    by_cases hmk : (!(w.fs.pexists song.oldPath.parent)) = true
    · rw [if_pos hmk] at h
      exact remove_cover_core_moves song (w.mkdirOne song.oldPath.parent) r w' h
    · rw [if_neg hmk] at h
      exact remove_cover_core_moves song w r w' h
  · intro i r w' hi h
    unfold Song.remove_cover at h
    by_cases hmk : (!(w.fs.pexists song.oldPath.parent)) = true
    · rw [if_pos hmk] at h
      exact remove_cover_core_backup song (w.mkdirOne song.oldPath.parent) i hi r w' h
    · rw [if_neg hmk] at h
      exact remove_cover_core_backup song w i hi r w' h

def songC3 : Song := ⟨⟨["d", "f.mp3"]⟩, none, none, none, none⟩

def worldC3 : World :=
  ⟨⟨[(⟨["d", "f.mp3"]⟩, 0), (⟨["d", "mutil_backup~", "f.mp3"]⟩, 1)],
    [⟨["d", "mutil_backup~"]⟩], 5⟩, [], []⟩

/-- Witness for C3: with an existing distinct backup, `remove_cover` fails
with `AlreadyExists` and the temporary file is gone. -/
theorem c3_remove_cover_witness :
    ∃ w', Song.remove_cover songC3 worldC3 = (.error .alreadyExists, w')
      ∧ w'.fs.isFile songC3.tempPath = false :=
  (c3_remove_cover_safety songC3 worldC3).1 (by decide) (by decide) (by decide)
    (by decide)

/-- C9: `Song.transcode` computes the output path by replacing the source
extension with the codec table's output extension, fails with
`AlreadyExists` when that output path already exists (and does not touch the
world), and otherwise invokes the encoder exactly once, never deleting or
moving the original input — the record itself (including its `path`) is
returned unchanged.  The table maps "opus" to the extension `.ogg`. -/
theorem c9_transcode (song : Song) (w : World) (codec : String) (opt : CodecOpt)
    (hc : lookupCodec codec_config codec = some opt) :
    (w.fs.pexists (song.path.with_suffix opt.suffix) = true →
      song.transcode codec w = (.error .alreadyExists, w))
    ∧ (w.fs.pexists (song.path.with_suffix opt.suffix) = false →
      ∃ w', song.transcode codec w = (.ok song, w')
        ∧ w'.fs.inode song.path = w.fs.inode song.path
        ∧ w'.calls = w.calls ++
            [⟨song.path, song.path.with_suffix opt.suffix, opt.options⟩]
        ∧ (w.fs.isFile song.path = true →
            w'.fs.isFile (song.path.with_suffix opt.suffix) = true))
    ∧ (∃ o, lookupCodec codec_config "opus" = some o ∧ o.suffix = ".ogg") := by
  refine ⟨?_, ?_, ⟨_, rfl, rfl⟩⟩
  · intro hex
    unfold Song.transcode
    simp only [hc]
    rw [if_pos hex]
  · intro hex
    refine ⟨w.ffmpeg song.path (song.path.with_suffix opt.suffix) opt.options,
      ?_, ?_, ?_, ?_⟩
    · unfold Song.transcode
      simp only [hc]
      rw [if_neg (by rw [hex]; simp)]
    · rw [ffmpeg_fs]
      by_cases hcr : (w.fs.isFile song.path &&
          !(w.fs.pexists (song.path.with_suffix opt.suffix))) = true
      · rw [if_pos hcr]
        apply createFile_inode_ne
        intro e
        have hpf : w.fs.isFile song.path = true := (Bool.and_eq_true .. ▸ hcr).1
        rw [e] at hpf
        rw [pexists_of_isFile _ _ hpf] at hex
        exact Bool.noConfusion hex
      · rw [if_neg hcr]
    · exact ffmpeg_calls _ _ _ _
    · intro hf
      rw [FS.isFile, ffmpeg_fs, if_pos (by rw [hf, hex]; rfl)]
      have h2 := createFile_isFile_self w.fs (song.path.with_suffix opt.suffix)
      rw [FS.isFile] at h2
      exact h2

/-- Witness for C9: transcoding a concrete `.mp3` file to "opus" succeeds,
keeps the input file, invokes the encoder once, and creates the `.ogg`
output. -/
theorem c9_transcode_witness :
    ∃ w', Song.transcode songC1 "opus" worldC2 = (.ok songC1, w')
      ∧ w'.fs.inode songC1.path = worldC2.fs.inode songC1.path
      ∧ w'.calls = worldC2.calls ++
          [⟨songC1.path, songC1.path.with_suffix ".ogg",
            ["-acodec", "libopus", "-vbr", "off", "-b:a", "192k",
             "-sample_fmt", "s16", "-vn"]⟩]
      ∧ (worldC2.fs.isFile songC1.path = true →
          w'.fs.isFile (songC1.path.with_suffix ".ogg") = true) :=
  (c9_transcode songC1 worldC2 "opus"
    ⟨".ogg", ["-acodec", "libopus", "-vbr", "off", "-b:a", "192k",
      "-sample_fmt", "s16", "-vn"]⟩ rfl).2.1 (by decide)

/-- C10 (implicit claim): when the record's file exists and its extension
already equals the codec's output extension, the computed output path is the
input path itself, so `transcode` fails with `AlreadyExists` and no encoder
invocation happens. -/
theorem c10_transcode_same_extension (song : Song) (w : World) (codec : String)
    (opt : CodecOpt) (hc : lookupCodec codec_config codec = some opt)
    (hf : w.fs.isFile song.path = true)
    (hs : song.path.pysuffix = opt.suffix) :
    song.path.with_suffix opt.suffix = song.path
    ∧ song.transcode codec w = (.error .alreadyExists, w)
    ∧ (song.transcode codec w).2.calls = w.calls := by
  have hne : opt.suffix ≠ "" := by
    simp only [codec_config, lookupCodec] at hc
    by_cases h1 : "opus" = codec
    · rw [if_pos h1] at hc
      injection hc with hc
      subst hc
      decide
    · rw [if_neg h1] at hc
      by_cases h2 : "mp3-320" = codec
      · rw [if_pos h2] at hc
        injection hc with hc
        subst hc
        decide
      · rw [if_neg h2] at hc
        by_cases h3 : "mp3-128" = codec
        · rw [if_pos h3] at hc
          injection hc with hc
          subst hc
          decide
        · rw [if_neg h3] at hc
          exact absurd hc (by simp)
  have hws : song.path.with_suffix opt.suffix = song.path := by
    rw [← hs]
    exact with_suffix_self song.path (by rw [hs]; exact hne)
  have h2 : song.transcode codec w = (.error .alreadyExists, w) := by
    unfold Song.transcode
    simp only [hc]
    rw [hws, if_pos (pexists_of_isFile _ _ hf)]
  exact ⟨hws, h2, by rw [h2]⟩

def worldC10 : World := ⟨⟨[(⟨["f.mp3"]⟩, 0)], [], 3⟩, [], []⟩

/-- Witness for C10: a `.mp3` input with the "mp3-320" target collides with
itself. -/
theorem c10_transcode_witness :
    FsPath.with_suffix ⟨["f.mp3"]⟩ ".mp3" = ⟨["f.mp3"]⟩
    ∧ Song.transcode ⟨⟨["f.mp3"]⟩, none, none, none, none⟩ "mp3-320" worldC10 =
        (.error .alreadyExists, worldC10)
    ∧ (Song.transcode ⟨⟨["f.mp3"]⟩, none, none, none, none⟩ "mp3-320"
        worldC10).2.calls = worldC10.calls :=
  c10_transcode_same_extension ⟨⟨["f.mp3"]⟩, none, none, none, none⟩ worldC10
    "mp3-320" ⟨".mp3", ["-acodec", "libmp3lame", "-b:a", "320k", "-vn"]⟩ rfl
    (by decide) (by decide)

/-- C5 counterexample: the claim says `sort` does not fail when the artist
is absent; in the source, `clean_string(None)` hands `None` to `re.sub`,
which raises `TypeError`, so `sort` fails instead of proceeding. -/
theorem c5_counterexample :
    Song.sort ⟨⟨["f.mp3"]⟩, none, some "Test Album", none, none⟩ ⟨["music"]⟩
      worldC10 = (.error .typeError, worldC10) := rfl

/-- C5 (amended): sanitizing an absent tag value raises a type error rather
than yielding empty text, so `sort` fails with `TypeError` — and changes
nothing — whenever the artist or the album is absent. -/
theorem c5_sort_missing_tags (song : Song) (base : FsPath) (w : World)
    (h : song.artist = none ∨ song.album = none) :
    song.sort base w = (.error .typeError, w) := by
  unfold Song.sort
  cases hA : song.artist with
  | none => rfl
  | some a =>
    rcases h with h | h
    · rw [hA] at h
      exact absurd h (by simp)
    · rw [h]
      simp only [clean_string_opt]

/-- Witness for C5 at a concrete record with an absent album. -/
theorem c5_sort_witness :
    Song.sort ⟨⟨["g.mp3"]⟩, none, none, some "Artist", none⟩ ⟨["music"]⟩
      worldC10 = (.error .typeError, worldC10) :=
  c5_sort_missing_tags ⟨⟨["g.mp3"]⟩, none, none, some "Artist", none⟩
    ⟨["music"]⟩ worldC10 (Or.inr rfl)

/-! ## Claim C4: `format_filename` -/

/-- The prefix string built by `format_filename` (`s` after the track step). -/
def fmtS1 (song : Song) : String :=
  if truthyNat song.track then pad2 (song.track.getD 0) ++ "_" else ""

/-- The stem string built by `format_filename` before the `rstrip`. -/
def fmtS2 (song : Song) : String :=
  if truthyStr song.title then
    fmtS1 song ++ clean_string (song.title.getD "")
      (some ((64 : Int) - (((fmtS1 song).length + (song.path.pysuffix).length : Nat) : Int)))
  else fmtS1 song

theorem format_filename_eq (song : Song) :
    song.format_filename =
      if (fmtS2 song).length < 1 then .error .valueError
      else .ok (song.path.withName (rstripU (fmtS2 song) ++ song.path.pysuffix)) := rfl

theorem clean_string_length_le (str : String) (t : Int) (ht : 0 < t) :
    (clean_string str (some t)).length ≤ t.toNat := by
  show (if t = 0 then collapse (stripEnds (subst str.data))
      else pySliceTo (collapse (stripEnds (subst str.data))) t).length ≤ t.toNat
  rw [if_neg (by omega : ¬ t = 0)]
  unfold pySliceTo
  rw [if_pos (le_of_lt ht)]
  rw [List.length_take]
  exact min_le_left _ _

theorem rstripU_length_le (s : String) : (rstripU s).length ≤ s.length :=
  length_rdropList_le _ _

theorem rstrip_pad2 (n : Nat) :
    rdropList (fun c => c == '_') (pad2 n).data = (pad2 n).data := by
  obtain ⟨l, k, hk⟩ := natDigitsAux_concat (n + 1) n (by omega)
  unfold pad2
  by_cases hn : n < 10
  · rw [if_pos hn]
    have hdata : ("0" ++ natToString n).data = ('0' :: l) ++ [digitChar k] := by
      rw [String.data_append]
      show ('0' :: ("" : String).data) ++ (natDigitsAux (n + 1) n) = _
      rw [hk]
      rfl
    rw [hdata]
    exact rdropList_concat_of_neg _ _ _ (digitChar_ne_underscore k)
  · rw [if_neg hn]
    have hdata : (natToString n).data = l ++ [digitChar k] := hk
    rw [hdata]
    exact rdropList_concat_of_neg _ _ _ (digitChar_ne_underscore k)

theorem rstrip_pad_keeps_lead (n : Nat) (X : List Char) :
    ∃ rest, rdropList (fun c => c == '_') ((pad2 n).data ++ '_' :: X) =
      (pad2 n).data ++ rest := by
  have h := rdropList_append (fun c => c == '_') (pad2 n).data ('_' :: X)
  by_cases hc : rdropList (fun c => c == '_') ('_' :: X) = []
  · rw [if_pos hc] at h
    rw [rstrip_pad2] at h
    exact ⟨[], by rw [h]; simp⟩
  · rw [if_neg hc] at h
    exact ⟨rdropList (fun c => c == '_') ('_' :: X), h⟩

/-- C4 counterexample: the claim says the `NN_` prefix is built whenever a
track number is present *including 0*, and that the resulting stem+extension
is at most 64 characters.  In the source `if self.track:` treats track 0 as
absent, so no prefix is built; and when the prefix plus extension reach 64
characters the trim budget is no longer positive (`if trim:` is falsy at 0),
so no truncation happens and the name exceeds 64 characters. -/
theorem c4_counterexample :
    Song.format_filename ⟨⟨["x.mp3"]⟩, some "Test", none, none, some 0⟩ =
      .ok ⟨["Test.mp3"]⟩
    ∧ (⟨["Test.mp3"]⟩ : FsPath) ≠ ⟨["00_Test.mp3"]⟩
    ∧ ∃ p, Song.format_filename
        ⟨⟨["a.bbbbbbbbbbbbbbbbbbbbbbbbbbbbbbbbbbbbbbbbbbbbbbbbbbbbbbbbbbbbbbb"]⟩,
          some "TTTTTTTTTTTTTTTTTTTTTTTTTTTTTTTTTTTTTTTTTTTTTTTTTTTTTTTTTTTTTTTTT", none, none, none⟩ = .ok p
      ∧ 64 < p.name.length := by
  refine ⟨rfl, by decide, ⟨⟨["TTTTTTTTTTTTTTTTTTTTTTTTTTTTTTTTTTTTTTTTTTTTTTTTTTTTTTTTTTTTTTTTT.bbbbbbbbbbbbbbbbbbbbbbbbbbbbbbbbbbbbbbbbbbbbbbbbbbbbbbbbbbbbbbb"]⟩, rfl, by decide⟩⟩

theorem string_length_lt_one_iff (s : String) : s.length < 1 ↔ s = "" := by
  constructor
  · intro h
    cases s with
    | mk data =>
      match data, h with
      | [], _ => rfl
      | c :: t, h =>
        exfalso
        have : (String.mk (c :: t)).length = t.length + 1 := rfl
        rw [this] at h
        omega
  · intro h
    rw [h]
    decide

/-- C4 (amended): `format_filename` builds the `NN_` prefix exactly when a
*nonzero* track number is present (track 0 is treated like an absent track);
the returned name is the built stem with its trailing separator stripped and
the original extension appended unchanged, in the original directory; the
stem+extension is at most 64 characters *provided* prefix and extension
leave a positive trim budget (`prefix length + extension length < 64`); and
it fails with `ValueError` (insufficient metadata) exactly when no nonzero
track is present and the sanitized title is empty. -/
theorem c4_format_filename (song : Song) :
    (∀ n, song.track = some n → n ≠ 0 → ∀ p, song.format_filename = .ok p →
      ∃ rest, p.name.data = (pad2 n).data ++ rest)
    ∧ (song.track = some 0 →
      song.format_filename = Song.format_filename { song with track := none })
    ∧ (∀ p, song.format_filename = .ok p →
      (fmtS1 song).length + song.path.pysuffix.length < 64 →
      p.name.length ≤ 64)
    ∧ (∀ p, song.format_filename = .ok p →
      p.name = rstripU (fmtS2 song) ++ song.path.pysuffix ∧
      p.parent = song.path.parent)
    ∧ (song.format_filename = .error .valueError ↔
      (truthyNat song.track = false ∧ (truthyStr song.title = false ∨
        clean_string (song.title.getD "")
          (some ((64 : Int) - ((song.path.pysuffix).length : Int))) = ""))) := by
  have hfmt := format_filename_eq song
  refine ⟨?_, ?_, ?_, ?_, ?_⟩
  · intro n hn hn0 p hp
    have htn : truthyNat song.track = true := by
      rw [hn]
      simp [truthyNat, hn0]
    have hs1 : fmtS1 song = pad2 n ++ "_" := by
      unfold fmtS1
      rw [if_pos htn, hn]
      rfl
    obtain ⟨X, hX⟩ : ∃ X, (fmtS2 song).data = (pad2 n).data ++ '_' :: X := by
      unfold fmtS2
      by_cases hts : truthyStr song.title = true
      · rw [if_pos hts, hs1]
        refine ⟨(clean_string (song.title.getD "")
          (some ((64 : Int) - (((pad2 n ++ "_").length +
            (song.path.pysuffix).length : Nat) : Int)))).data, ?_⟩
        rw [String.data_append, String.data_append, List.append_assoc]
        rfl
      · rw [if_neg hts, hs1]
        refine ⟨[], ?_⟩
        rw [String.data_append]
    rw [hfmt] at hp
    by_cases hlen : (fmtS2 song).length < 1
    · rw [if_pos hlen] at hp
      exact absurd hp (by simp)
    · rw [if_neg hlen] at hp
      injection hp with hp
      subst hp
      rw [fspath_withName_name, String.data_append]
      have hr : (rstripU (fmtS2 song)).data =
          rdropList (fun c => c == '_') ((pad2 n).data ++ '_' :: X) := by
        show rdropList (fun c => c == '_') (fmtS2 song).data = _
        rw [hX]
      obtain ⟨rest, hrest⟩ := rstrip_pad_keeps_lead n X
      exact ⟨rest ++ (song.path.pysuffix).data,
        by rw [hr, hrest, List.append_assoc]⟩
  · intro h0
    unfold Song.format_filename
    rw [h0]
    rfl
  · intro p hp hb
    rw [hfmt] at hp
    by_cases hlen : (fmtS2 song).length < 1
    · rw [if_pos hlen] at hp
      exact absurd hp (by simp)
    · rw [if_neg hlen] at hp
      injection hp with hp
      subst hp
      rw [fspath_withName_name, String.length_append]
      have h1 : (rstripU (fmtS2 song)).length ≤ (fmtS2 song).length :=
        rstripU_length_le _
      have h2 : (fmtS2 song).length + song.path.pysuffix.length ≤ 64 := by
        unfold fmtS2
        by_cases hts : truthyStr song.title = true
        · rw [if_pos hts, String.length_append]
          have ht : (0 : Int) < (64 : Int) - (((fmtS1 song).length +
              (song.path.pysuffix).length : Nat) : Int) := by
            push_cast
            omega
          have h3 := clean_string_length_le (song.title.getD "") _ ht
          omega
        · rw [if_neg hts]
          omega
      omega
  · intro p hp
    rw [hfmt] at hp
    by_cases hlen : (fmtS2 song).length < 1
    · rw [if_pos hlen] at hp
      exact absurd hp (by simp)
    · rw [if_neg hlen] at hp
      injection hp with hp
      subst hp
      exact ⟨fspath_withName_name _ _, fspath_withName_parent _ _⟩
  · rw [hfmt]
    by_cases htn : truthyNat song.track = true
    · have hs1len : 1 ≤ (fmtS1 song).length := by
        unfold fmtS1
        rw [if_pos htn, String.length_append]
        rw [show ("_" : String).length = 1 from rfl]
        omega
      have hlen : ¬ (fmtS2 song).length < 1 := by
        unfold fmtS2
        by_cases hts : truthyStr song.title = true
        · rw [if_pos hts, String.length_append]
          omega
        · rw [if_neg hts]
          omega
      rw [if_neg hlen]
      constructor
      · intro h
        exact absurd h (by simp)
      · rintro ⟨h1, -⟩
        rw [htn] at h1
        exact absurd h1 (by simp)
    · have htf : truthyNat song.track = false := by simpa using htn
      have hs1 : fmtS1 song = "" := by
        unfold fmtS1
        rw [htf]
        rfl
      have htrim : ((64 : Int) - ((("" : String).length +
          (song.path.pysuffix).length : Nat) : Int)) =
          ((64 : Int) - ((song.path.pysuffix).length : Int)) := by
        rw [show ("" : String).length = 0 from rfl]
        simp
      by_cases hts : truthyStr song.title = true
      · have h2 : fmtS2 song = clean_string (song.title.getD "")
            (some ((64 : Int) - ((song.path.pysuffix).length : Int))) := by
          unfold fmtS2
          rw [if_pos hts, hs1, htrim]
          rfl
        rw [h2]
        constructor
        · intro h
          by_cases hcl : (clean_string (song.title.getD "")
              (some ((64 : Int) - ((song.path.pysuffix).length : Int)))).length < 1
          · exact ⟨htf, Or.inr ((string_length_lt_one_iff _).mp hcl)⟩
          · rw [if_neg hcl] at h
            exact absurd h (by simp)
        · rintro ⟨-, h | h⟩
          · rw [hts] at h
            exact absurd h (by simp)
          · rw [if_pos (by rw [h]; decide)]
      · have hts' : truthyStr song.title = false := by simpa using hts
        have h2 : fmtS2 song = "" := by
          unfold fmtS2
          rw [hts']
          exact hs1
        rw [h2, if_pos (by decide)]
        constructor
        · intro _
          exact ⟨htf, Or.inl hts'⟩
        · intro _
          rfl

/-- Witness for C4 at the spec's own scenario: track 1, title "Test Song",
extension `.mp3` — the derived name carries the zero-padded prefix. -/
theorem c4_format_filename_witness :
    ∃ rest, (FsPath.name ⟨["01_Test_Song.mp3"]⟩).data = (pad2 1).data ++ rest :=
  (c4_format_filename ⟨⟨["x.mp3"]⟩, some "Test Song", none, none, some 1⟩).1 1 rfl
    (by decide) ⟨["01_Test_Song.mp3"]⟩ rfl

/-- Witness for C7: the leading digit run of "2/10" is parsed to 2. -/
theorem c7_parse_tracknumber_witness :
    parse_tracknumber (some "2/10") = .ok (some (digitsToNat ['2'])) :=
  (c7_parse_tracknumber "2/10" '2' [] rfl).2.2.2.1
